import Mathlib

/-!
# Verification of the project-indexer indexing pipeline

A shallow embedding, in Lean 4, of the chunking, caching, vector-store and
HTTP-retrieval logic of the `iasik/project-indexer` Go repository, together
with theorems settling the behavioural claims made about it.

Conventions of the embedding:

* Go strings are UTF-8 byte sequences; `strBytes` is the byte expansion of a
  Lean `String`, and `byteLen` plays the role of Go's `len(string)`.
* Go `int` arithmetic on sizes and line numbers is carried out in `Nat`
  (the quantities involved are non-negative throughout the modelled code);
  the request field `top_k`, which can be negative on the wire, is an `Int`.
* Go's `crypto/sha256` is reproduced concretely (FIPS 180-4) so that chunk
  ids, content hashes and vector-store UUID keys are all computable.
* Side effects (HTTP, file system) are made explicit: functions return the
  values the Go code would write, and nondeterministic inputs (map iteration
  order, worker scheduling) become universally quantified parameters.
-/

namespace ProjectIndexer

/-! ## Bytes and strings -/

/-- UTF-8 byte expansion of a single character (RFC 3629), as Go produces
when a `string` is viewed as bytes. -/
def utf8Char (c : Char) : List Nat :=
  let n := c.toNat
  if n < 0x80 then [n]
  else if n < 0x800 then [0xC0 + n / 64, 0x80 + n % 64]
  else if n < 0x10000 then [0xE0 + n / 4096, 0x80 + n / 64 % 64, 0x80 + n % 64]
  else [0xF0 + n / 262144, 0x80 + n / 4096 % 64, 0x80 + n / 64 % 64, 0x80 + n % 64]

/-- The bytes of a Go string. -/
def strBytes (s : String) : List Nat := s.data.flatMap utf8Char

/-- Go's `len` on a string: its byte count. -/
def byteLen (s : String) : Nat := (strBytes s).length

/-! ## SHA-256 (Go `crypto/sha256`, FIPS 180-4) -/

/-- 32-bit word arithmetic: everything is reduced modulo `2^32`. -/
def w32 : Nat := 4294967296

/-- Right rotation of a 32-bit word. -/
def rotr (n x : Nat) : Nat := x / 2 ^ n + x % 2 ^ n * 2 ^ (32 - n)

/-- The eight-word working state of the SHA-256 compression function. -/
structure Sha256State where
  a : Nat
  b : Nat
  c : Nat
  d : Nat
  e : Nat
  f : Nat
  g : Nat
  h : Nat
deriving Repr, DecidableEq

/-- SHA-256 initial hash value (FIPS 180-4 section 5.3.3, in decimal). -/
def sha256Init : Sha256State :=
  ⟨1779033703, 3144134277, 1013904242, 2773480762,
   1359893119, 2600822924, 528734635, 1541459225⟩

/-- SHA-256 round constants (FIPS 180-4 section 4.2.2, in decimal). -/
def sha256K : List Nat :=
  [1116352408, 1899447441, 3049323471, 3921009573,
   961987163, 1508970993, 2453635748, 2870763221,
   3624381080, 310598401, 607225278, 1426881987,
   1925078388, 2162078206, 2614888103, 3248222580,
   3835390401, 4022224774, 264347078, 604807628,
   770255983, 1249150122, 1555081692, 1996064986,
   2554220882, 2821834349, 2952996808, 3210313671,
   3336571891, 3584528711, 113926993, 338241895,
   666307205, 773529912, 1294757372, 1396182291,
   1695183700, 1986661051, 2177026350, 2456956037,
   2730485921, 2820302411, 3259730800, 3345764771,
   3516065817, 3600352804, 4094571909, 275423344,
   430227734, 506948616, 659060556, 883997877,
   958139571, 1322822218, 1537002063, 1747873779,
   1955562222, 2024104815, 2227730452, 2361852424,
   2428436474, 2756734187, 3204031479, 3329325298]

/-- Message-schedule extension: grows the 16 block words to 64. -/
def sha256Extend (ws : List Nat) : Nat → List Nat
  | 0 => ws
  | n + 1 =>
    let len := ws.length
    let w15 := ws.getD (len - 15) 0
    let w2 := ws.getD (len - 2) 0
    let s0 := (rotr 7 w15 ^^^ rotr 18 w15 ^^^ w15 / 2 ^ 3) % w32
    let s1 := (rotr 17 w2 ^^^ rotr 19 w2 ^^^ w2 / 2 ^ 10) % w32
    let nw := (ws.getD (len - 16) 0 + s0 + ws.getD (len - 7) 0 + s1) % w32
    sha256Extend (ws ++ [nw]) n

/-- One round of the SHA-256 compression function. -/
def sha256Round (st : Sha256State) (kw : Nat × Nat) : Sha256State :=
  let s1 := (rotr 6 st.e ^^^ rotr 11 st.e ^^^ rotr 25 st.e) % w32
  let ch := (st.e &&& st.f ^^^ (st.e ^^^ 0xffffffff) &&& st.g) % w32
  let t1 := (st.h + s1 + ch + kw.1 + kw.2) % w32
  let s0 := (rotr 2 st.a ^^^ rotr 13 st.a ^^^ rotr 22 st.a) % w32
  let mj := (st.a &&& st.b ^^^ st.a &&& st.c ^^^ st.b &&& st.c) % w32
  let t2 := (s0 + mj) % w32
  ⟨(t1 + t2) % w32, st.a, st.b, st.c, (st.d + t1) % w32, st.e, st.f, st.g⟩

/-- Group a byte list into big-endian 32-bit words. -/
def bytesToWords : List Nat → List Nat
  | b0 :: b1 :: b2 :: b3 :: rest =>
    (b0 * 16777216 + b1 * 65536 + b2 * 256 + b3) :: bytesToWords rest
  | _ => []

/-- Compress one 64-byte block into the running hash state. -/
def sha256Block (st : Sha256State) (block : List Nat) : Sha256State :=
  let ws := sha256Extend (bytesToWords block) 48
  let r := (sha256K.zip ws).foldl sha256Round st
  ⟨(st.a + r.a) % w32, (st.b + r.b) % w32, (st.c + r.c) % w32, (st.d + r.d) % w32,
   (st.e + r.e) % w32, (st.f + r.f) % w32, (st.g + r.g) % w32, (st.h + r.h) % w32⟩

/-- Split the padded message into 64-byte blocks. -/
def sha256Chunks (bs : List Nat) : Nat → List (List Nat)
  | 0 => []
  | n + 1 =>
    if bs.length = 0 then [] else bs.take 64 :: sha256Chunks (bs.drop 64) n

/-- SHA-256 padding: `0x80`, zeros to 56 mod 64, then the bit length
big-endian in 8 bytes. -/
def sha256Pad (msg : List Nat) : List Nat :=
  let l := msg.length
  let zeros := (119 - l % 64) % 64
  let bits := l * 8
  msg ++ 0x80 :: List.replicate zeros 0 ++
    [bits / 2 ^ 56 % 256, bits / 2 ^ 48 % 256, bits / 2 ^ 40 % 256,
     bits / 2 ^ 32 % 256, bits / 2 ^ 24 % 256, bits / 2 ^ 16 % 256,
     bits / 2 ^ 8 % 256, bits % 256]

/-- Big-endian byte expansion of a 32-bit word. -/
def wordBytes (x : Nat) : List Nat :=
  [x / 16777216 % 256, x / 65536 % 256, x / 256 % 256, x % 256]

/-- The SHA-256 digest (32 bytes) of a byte sequence. -/
def sha256 (msg : List Nat) : List Nat :=
  let padded := sha256Pad msg
  let final := (sha256Chunks padded (padded.length / 64 + 1)).foldl sha256Block sha256Init
  wordBytes final.a ++ wordBytes final.b ++ wordBytes final.c ++ wordBytes final.d ++
    wordBytes final.e ++ wordBytes final.f ++ wordBytes final.g ++ wordBytes final.h

/-! ## Lowercase hex formatting (Go `fmt` verb `%x` on bytes) -/

/-- The sixteen lowercase hex digit characters. -/
def hexChars : List Char := "0123456789abcdef".data

/-- A single hex digit character. -/
def hexDigit (n : Nat) : Char := hexChars.getD n '0'

/-- Two-character lowercase hex of one byte. -/
def byteHex (b : Nat) : List Char := [hexDigit (b / 16), hexDigit (b % 16)]

/-- Go's `%x` of a byte slice: each byte as two lowercase hex characters. -/
def bytesHex (bs : List Nat) : String := String.mk (bs.flatMap byteHex)

/-- `chunker.HashContent`: the lowercase hex SHA-256 of a string. -/
def HashContent (content : String) : String := bytesHex (sha256 (strBytes content))

/-! ## Vector-store UUID keys (`vectordb.stringToUUID`, qdrant.go) -/

/-- `stringToUUID`: SHA-256 the id, keep the first 16 bytes, and print them
as `8-4-4-4-12` lowercase hex groups, exactly as
`fmt.Sprintf("%08x-%04x-%04x-%04x-%012x", hash[0:4], hash[4:6], hash[6:8],
hash[8:10], hash[10:16])` does.  (`%0kx` on a k/2-byte slice emits exactly
k hex characters, so the padding widths are inert.) -/
def stringToUUID (s : String) : String :=
  let hash := sha256 (strBytes s)
  bytesHex (hash.take 4) ++ "-" ++ bytesHex ((hash.drop 4).take 2) ++ "-" ++
    bytesHex ((hash.drop 6).take 2) ++ "-" ++ bytesHex ((hash.drop 8).take 2) ++ "-" ++
    bytesHex ((hash.drop 10).take 6)

/-- Payload stored with a point (qdrant.go `Upsert`). -/
structure Payload where
  projectID : String
  filePath : String
  symbol : String
  symbolType : String
  language : String
  module : String
  startLine : Nat
  endLine : Nat
  content : String
  contentHash : String
  indexedAt : String
deriving Repr, DecidableEq

/-- A point handed to the vector store. -/
structure Point where
  id : String
  vector : List Int
  payload : Payload
deriving Repr, DecidableEq

/-- The primary keys `QdrantClient.Upsert` writes under: each point id is
passed through `stringToUUID`. -/
def qdrantUpsertKeys (points : List Point) : List String :=
  points.map fun p => stringToUUID p.id

/-- The primary keys `QdrantClient.Delete` targets: each chunk id is passed
through `stringToUUID`. -/
def qdrantDeleteKeys (ids : List String) : List String :=
  ids.map stringToUUID

/-! ### Facts about the UUID key derivation -/

theorem hexDigit_mem (n : Nat) : hexDigit n ∈ hexChars := by
  by_cases h : n < hexChars.length
  · have : hexDigit n = hexChars[n] := by
      simp [hexDigit, List.getD, List.getElem?_eq_getElem h]
    rw [this]; exact List.getElem_mem h
  · have : hexDigit n = '0' := by
      simp [hexDigit, List.getD, List.getElem?_eq_none (not_lt.mp h)]
    rw [this]; decide

theorem byteHex_length (b : Nat) : (byteHex b).length = 2 := rfl

theorem byteHex_mem (b : Nat) : ∀ c ∈ byteHex b, c ∈ hexChars := by
  intro c hc
  rcases List.mem_pair.mp (by simpa [byteHex] using hc) with h | h
  · exact h ▸ hexDigit_mem _
  · exact h ▸ hexDigit_mem _

theorem flatMap_byteHex_length (bs : List Nat) : (bs.flatMap byteHex).length = 2 * bs.length := by
  induction bs with
  | nil => rfl
  | cons b rest ih => simp [List.flatMap_cons, ih, byteHex_length]; omega

theorem bytesHex_length (bs : List Nat) : (bytesHex bs).length = 2 * bs.length := by
  simpa [bytesHex, String.length] using flatMap_byteHex_length bs

theorem bytesHex_mem (bs : List Nat) : ∀ c ∈ (bytesHex bs).data, c ∈ hexChars := by
  intro c hc
  simp only [bytesHex] at hc
  rcases List.mem_flatMap.mp hc with ⟨b, _, hcb⟩
  exact byteHex_mem b c hcb

theorem sha256_length (msg : List Nat) : (sha256 msg).length = 32 := by
  simp [sha256, wordBytes]

/-- C7.  The vector-store key of a chunk id is the first 16 bytes of
SHA-256(id) printed as `8-4-4-4-12` lowercase hex groups; the derivation is a
pure function of the id alone (hence identical across runs and hosts), and
`Upsert` and `Delete` both apply it, so deleting and re-upserting the same
chunk id resolves to the same key. -/
theorem uuid_key_format_and_consistency (id : String) :
    (∃ g1 g2 g3 g4 g5 : String,
      stringToUUID id = g1 ++ "-" ++ g2 ++ "-" ++ g3 ++ "-" ++ g4 ++ "-" ++ g5 ∧
      g1 = bytesHex ((sha256 (strBytes id)).take 4) ∧
      g1.length = 8 ∧ g2.length = 4 ∧ g3.length = 4 ∧ g4.length = 4 ∧ g5.length = 12 ∧
      (∀ c, (c ∈ g1.data ∨ c ∈ g2.data ∨ c ∈ g3.data ∨ c ∈ g4.data ∨ c ∈ g5.data) →
        c ∈ hexChars)) ∧
    ∀ vec payload, qdrantDeleteKeys [id] = qdrantUpsertKeys [⟨id, vec, payload⟩] := by
  constructor
  · set hash := sha256 (strBytes id) with hh
    have hlen : hash.length = 32 := sha256_length _
    refine ⟨bytesHex (hash.take 4), bytesHex ((hash.drop 4).take 2),
      bytesHex ((hash.drop 6).take 2), bytesHex ((hash.drop 8).take 2),
      bytesHex ((hash.drop 10).take 6), rfl, rfl, ?_, ?_, ?_, ?_, ?_, ?_⟩
    · rw [bytesHex_length]; simp [hlen]
    · rw [bytesHex_length]; simp [hlen]
    · rw [bytesHex_length]; simp [hlen]
    · rw [bytesHex_length]; simp [hlen]
    · rw [bytesHex_length]; simp [hlen]
    · intro c hc
      rcases hc with h | h | h | h | h <;> exact bytesHex_mem _ c h
  · intro vec payload
    rfl

/-! ## Retrieval service (api/handlers.go, api/server.go) -/

/-- Optional search filters of a retrieve request. -/
structure RetrieveFilters where
  module : String
  language : String
  symbolType : String
deriving Repr, DecidableEq

/-- The request body of `POST /retrieve`.  A `top_k` absent from the JSON
body decodes to Go's zero value `0`. -/
structure RetrieveRequest where
  projectID : String
  query : String
  topK : Int
  filters : Option RetrieveFilters
deriving Repr, DecidableEq

/-- Outcome of `json.NewDecoder(r.Body).Decode(&req)`. -/
inductive DecodeResult where
  | fail (msg : String)
  | ok (req : RetrieveRequest)
deriving Repr, DecidableEq

/-- Equality filter handed to the vector store (vectordb `Filter`). -/
structure Filter where
  projectID : String
  module : String
  language : String
  symbolType : String
deriving Repr, DecidableEq

/-- The query the handler passes to `vdb.Search`. -/
structure SearchQuery where
  vector : List Int
  topK : Int
  filter : Filter
  scoreThreshold : Int
deriving Repr, DecidableEq

/-- One hit returned by the vector store. -/
structure SearchResult where
  id : String
  score : Int
  payload : Payload
deriving Repr, DecidableEq

/-- A result row of the retrieve response. -/
structure RetrieveResult where
  content : String
  source : String
  symbol : String
  symbolType : String
  projectID : String
  module : String
  language : String
  startLine : Nat
  endLine : Nat
  score : Int
deriving Repr, DecidableEq

/-- An HTTP response body: either the JSON object `writeError` produces
(`map[string]string{"error": message}`, a single-field object) or the
success payload. -/
inductive RespBody where
  | err (fields : List (String × String))
  | ok (results : List RetrieveResult)
deriving Repr, DecidableEq

/-- An HTTP response: status code plus body. -/
structure HttpResponse where
  status : Nat
  body : RespBody
deriving Repr, DecidableEq

/-- `writeError(w, status, message)`: status plus the one-field JSON object
`{"error": message}`. -/
def writeError (status : Nat) (message : String) : HttpResponse :=
  ⟨status, .err [("error", message)]⟩

/-- `handleRetrieve`, with its two external calls (query embedding and
vector search) supplied as oracles, returning the HTTP response together
with the search query actually issued (`none` when `vdb.Search` was never
reached).  Mirrors api/handlers.go line by line: decode, required-field
checks, top-k clamping, embedding, filter construction, search, shaping. -/
def handleRetrieve (decoded : DecodeResult)
    (embed : String → Except String (List Int))
    (search : SearchQuery → Except String (List SearchResult)) :
    HttpResponse × Option SearchQuery :=
  match decoded with
  | .fail msg => (writeError 400 ("invalid request body: " ++ msg), none)
  | .ok req =>
    if req.projectID = "" then (writeError 400 "project_id is required", none)
    else if req.query = "" then (writeError 400 "query is required", none)
    else
      let topK := if req.topK ≤ 0 then 5 else req.topK
      let topK := if topK > 20 then 20 else topK
      match embed req.query with
      | .error _ => (writeError 500 "failed to process query", none)
      | .ok queryVector =>
        let filter : Filter :=
          match req.filters with
          | none => ⟨req.projectID, "", "", ""⟩
          | some f => ⟨req.projectID, f.module, f.language, f.symbolType⟩
        let q : SearchQuery := ⟨queryVector, topK, filter, 0⟩
        match search q with
        | .error _ => (writeError 500 "search failed", some q)
        | .ok searchResults =>
          let results := searchResults.map fun sr =>
            RetrieveResult.mk sr.payload.content sr.payload.filePath sr.payload.symbol
              sr.payload.symbolType sr.payload.projectID sr.payload.module
              sr.payload.language sr.payload.startLine sr.payload.endLine sr.score
          (⟨200, .ok results⟩, some q)

/-- The two clamping steps of handlers.go lines 111-116, characterised. -/
theorem topk_clamp_facts (k : Int) :
    1 ≤ (if (if k ≤ 0 then (5 : Int) else k) > 20 then 20 else if k ≤ 0 then 5 else k) ∧
    (if (if k ≤ 0 then (5 : Int) else k) > 20 then 20 else if k ≤ 0 then 5 else k) ≤ 20 ∧
    (k ≤ 0 → (if (if k ≤ 0 then (5 : Int) else k) > 20 then 20
              else if k ≤ 0 then 5 else k) = 5) ∧
    (k > 20 → (if (if k ≤ 0 then (5 : Int) else k) > 20 then 20
               else if k ≤ 0 then 5 else k) = 20) ∧
    (1 ≤ k → k ≤ 20 → (if (if k ≤ 0 then (5 : Int) else k) > 20 then 20
                       else if k ≤ 0 then 5 else k) = k) := by
  by_cases h0 : k ≤ 0 <;> by_cases h20 : k > 20 <;>
    simp only [h0, h20, if_true, if_false, reduceIte] <;> norm_num <;> omega

/-- C8.  Whenever `handleRetrieve` reaches the vector search, the query's
`top_k` lies in `[1, 20]`; a requested `top_k ≤ 0` (which includes an absent
field, decoding to `0`) was turned into `5`, a requested `top_k > 20` into
`20`, and an in-range request passes through unchanged. -/
theorem retrieve_topk_clamped (decoded : DecodeResult)
    (embed : String → Except String (List Int))
    (search : SearchQuery → Except String (List SearchResult))
    (q : SearchQuery) (hq : (handleRetrieve decoded embed search).2 = some q) :
    (1 ≤ q.topK ∧ q.topK ≤ 20) ∧
    ∀ req, decoded = .ok req →
      (req.topK ≤ 0 → q.topK = 5) ∧
      (req.topK > 20 → q.topK = 20) ∧
      (1 ≤ req.topK → req.topK ≤ 20 → q.topK = req.topK) := by
  match decoded with
  | .fail msg => simp [handleRetrieve] at hq
  | .ok req =>
    by_cases hp : req.projectID = ""
    · simp [handleRetrieve, hp] at hq
    by_cases hqy : req.query = ""
    · simp [handleRetrieve, hp, hqy] at hq
    simp only [handleRetrieve, if_neg hp, if_neg hqy] at hq
    have hk := topk_clamp_facts req.topK
    split at hq
    · exact absurd hq (by simp)
    split at hq <;> simp only [Option.some.injEq] at hq <;> subst hq <;>
      exact ⟨⟨hk.1, hk.2.1⟩, fun req' h => by
        cases h; exact ⟨hk.2.2.1, hk.2.2.2.1, hk.2.2.2.2⟩⟩

/-- C8 witness: a request with `top_k = 25` reaches the search with
`top_k = 20`, inside `[1, 20]`. -/
theorem retrieve_topk_clamped_witness :
    1 ≤ (SearchQuery.mk [] 20 ⟨"p", "", "", ""⟩ 0).topK ∧
    (SearchQuery.mk [] 20 ⟨"p", "", "", ""⟩ 0).topK ≤ 20 :=
  (retrieve_topk_clamped (.ok ⟨"p", "login", 25, none⟩)
    (fun _ => .ok []) (fun _ => .ok []) _ rfl).1

/-- C9 counterexample: the 400 response for a missing `project_id` has body
`{"error": "project_id is required"}` — there is no `code` field at all, so
the body is not of the shape `{error, code, request_id?}` with a code drawn
from the closed set. -/
theorem retrieve_error_no_code_field :
    ((handleRetrieve (.ok ⟨"", "login", 0, none⟩)
        (fun _ => .error "down") (fun _ => .error "down")).1).body
      = .err [("error", "project_id is required")] ∧
    (([("error", "project_id is required")] : List (String × String)).lookup "code"
      = none) := by
  constructor
  · rfl
  · rfl

/-- C9 amended: every error response of the HTTP surface (400 on unparsable
body or missing `project_id`/`query`, 500 on embedding or search failure)
has a body consisting of the single field `{"error": message}`; no `code`
and no `request_id` field is ever emitted. -/
theorem retrieve_error_body_single_field (decoded : DecodeResult)
    (embed : String → Except String (List Int))
    (search : SearchQuery → Except String (List SearchResult))
    (st : Nat) (b : RespBody)
    (hresp : (handleRetrieve decoded embed search).1 = ⟨st, b⟩) (hst : st ≠ 200) :
    (st = 400 ∨ st = 500) ∧ ∃ msg, b = .err [("error", msg)] ∧
      ([("error", msg)] : List (String × String)).lookup "code" = none := by
  match decoded with
  | .fail msg =>
    simp only [handleRetrieve, writeError, HttpResponse.mk.injEq] at hresp
    exact ⟨Or.inl hresp.1.symm, _, hresp.2.symm, rfl⟩
  | .ok req =>
    by_cases hp : req.projectID = "" <;> by_cases hqy : req.query = "" <;>
      simp only [handleRetrieve, hp, hqy, if_true, if_false, reduceIte,
        writeError] at hresp
    · exact ⟨Or.inl (HttpResponse.mk.injEq .. ▸ hresp).1.symm, _,
        (HttpResponse.mk.injEq .. ▸ hresp).2.symm, rfl⟩
    · exact ⟨Or.inl (HttpResponse.mk.injEq .. ▸ hresp).1.symm, _,
        (HttpResponse.mk.injEq .. ▸ hresp).2.symm, rfl⟩
    · exact ⟨Or.inl (HttpResponse.mk.injEq .. ▸ hresp).1.symm, _,
        (HttpResponse.mk.injEq .. ▸ hresp).2.symm, rfl⟩
    · rcases hemb : embed req.query with e | v
      · simp only [handleRetrieve, if_neg hp, if_neg hqy, hemb, writeError,
          HttpResponse.mk.injEq] at hresp
        exact ⟨Or.inr hresp.1.symm, _, hresp.2.symm, rfl⟩
      · simp only [handleRetrieve, if_neg hp, if_neg hqy, hemb] at hresp
        split at hresp <;>
          simp only [writeError, HttpResponse.mk.injEq] at hresp
        · exact ⟨Or.inr hresp.1.symm, _, hresp.2.symm, rfl⟩
        · exact absurd hresp.1.symm hst

/-- C9 amended witness: the missing-`project_id` response is a 400 whose
body is the single-field error object. -/
theorem retrieve_error_body_single_field_witness :
    ((400 : Nat) = 400 ∨ (400 : Nat) = 500) ∧
    ([("error", "project_id is required")] : List (String × String)).lookup "code" = none := by
  obtain ⟨hstatus, msg, hbody, hlookup⟩ :=
    retrieve_error_body_single_field (.ok ⟨"", "login", 0, none⟩)
      (fun _ => .error "down") (fun _ => .error "down") 400
      (.err [("error", "project_id is required")]) rfl (by decide)
  injection hbody with hfields
  injection hfields with hpair
  injection hpair with _ hmsg
  exact ⟨hstatus, by rw [hmsg]; exact hlookup⟩

/-! ## Chunker foundations (chunker/interface.go) -/

/-- Metadata about the file being chunked. -/
structure FileMetadata where
  filePath : String
  language : String
  module : String
  projectID : String
deriving Repr, DecidableEq

/-- A chunk, with the fields of `chunker.Chunk`. -/
structure Chunk where
  id : String
  content : String
  symbol : String
  symbolType : String
  startLine : Nat
  endLine : Nat
  tokenCount : Nat
  contentHash : String
  filePath : String
  language : String
  module : String
  projectID : String
deriving Repr, DecidableEq

/-- Chunking parameters (`chunker.ChunkingConfig`). -/
structure ChunkingConfig where
  minTokens : Nat
  idealTokens : Nat
  maxTokens : Nat
  mergeSmallChunks : Bool
deriving Repr, DecidableEq

/-- `chunker.EstimateTokens`: byte length divided by 4 (Go `len(content)/4`,
integer division). -/
def estimateTokens (content : String) : Nat := byteLen content / 4

/-- `chunker.GenerateChunkID`: `{project}:{file}:{symbol-sanitised}:{hash8}`.
The hash prefix truncation and the symbol sanitisation operate on ASCII
strings in every caller, so the character-based truncation and the
per-character replacement of `":"` (a one-byte pattern) agree with Go's
byte slicing and `strings.ReplaceAll`. -/
def GenerateChunkID (projectID filePath symbol contentHash : String) : String :=
  let hash8 := if contentHash.data.length > 8 then String.mk (contentHash.data.take 8)
    else contentHash
  let symbolPart := if symbol = "" then "_" else symbol
  let symbolPart := String.mk (symbolPart.data.map fun c => if c = ':' then '_' else c)
  projectID ++ ":" ++ filePath ++ ":" ++ symbolPart ++ ":" ++ hash8

/-- Go `strings.Split(s, "\n")` (always at least one element). -/
def splitLinesAux : List Char → List Char → List String
  | [], acc => [String.mk acc.reverse]
  | '\n' :: rest, acc => String.mk acc.reverse :: splitLinesAux rest []
  | c :: rest, acc => splitLinesAux rest (c :: acc)

/-- The lines of a string, split at every newline. -/
def splitLines (s : String) : List String := splitLinesAux s.data []

/-- Go `strings.Count(s, "\n") + 1`: the line count used by the file-level
fallbacks. -/
def newlineCountPlus1 (s : String) : Nat := (s.data.count '\n') + 1

/-! ## Markdown chunker (markdown_chunker.go) -/

/-- A markdown section (`mdSection`). -/
structure MdSection where
  heading : String
  level : Nat
  startLine : Nat
  endLine : Nat
  content : String
  tokens : Nat
deriving Repr, DecidableEq

/-- Whitespace class of Go regexp `\s`: tab, newline, form feed, carriage
return, space. -/
def isWs (c : Char) : Bool :=
  c = '\t' || c = '\n' || c = '\x0c' || c = '\r' || c = ' '

/-- The heading regexp `^(#{1,6})\s+(.+)$` applied to one line, returning
`(level, heading text)`.  The hash run must have length 1..6 and be followed
by at least one whitespace character; the heading text is what follows the
longest whitespace run that still leaves one character for `.+` (so a line
of hashes and trailing whitespace only matches when at least two whitespace
characters follow, the last one becoming the text). -/
def headingMatch (line : String) : Option (Nat × String) :=
  let cs := line.data
  let n := (cs.takeWhile (· = '#')).length
  if n < 1 || n > 6 then none
  else
    match cs.drop n with
    | [] => none
    | c :: cs' =>
      if !isWs c then none
      else
        let text := (c :: cs').dropWhile isWs
        if !text.isEmpty then some (n, String.mk text)
        else if !cs'.isEmpty then some (n, String.mk [(c :: cs').getLastD ' '])
        else none

/-- Close the in-progress section at line `e` (tokens recomputed), as at
markdown_chunker.go lines 92-95 and 120-123. -/
def mdClose (sec : MdSection) (e : Nat) : MdSection :=
  { sec with endLine := e, tokens := estimateTokens sec.content }

/-- The loop body of `extractSections`: walk the lines carrying the next
line number, the open section, and the closed sections (reversed). -/
def mdExtractLoop : List String → Nat → Option MdSection → List MdSection → List MdSection
  | [], n, cur, acc =>
    (match cur with
     | none => acc
     | some sec => mdClose sec (n - 1) :: acc).reverse
  | line :: rest, n, cur, acc =>
    match headingMatch line with
    | some (level, heading) =>
      let acc' := match cur with
        | none => acc
        | some sec => mdClose sec (n - 1) :: acc
      mdExtractLoop rest (n + 1) (some ⟨heading, level, n, 0, line, 0⟩) acc'
    | none =>
      match cur with
      | some sec =>
        mdExtractLoop rest (n + 1) (some { sec with content := sec.content ++ "\n" ++ line }) acc
      | none =>
        mdExtractLoop rest (n + 1) (some ⟨"(intro)", 0, n, 0, line, 0⟩) acc

/-- `MarkdownChunker.extractSections`. -/
def mdExtractSections (lines : List String) : List MdSection :=
  mdExtractLoop lines 1 none []

/-- The loop of `mergeSmallSections`; the closed output is kept reversed.
A small section merges into the previously emitted section when one exists
(in the Go loop `i > 0` is implied by a non-empty `result`), else it is
prepended onto the next section when one exists, else it is emitted. -/
def mdMergeLoop (minTokens : Nat) : List MdSection → List MdSection → List MdSection
  | revResult, [] => revResult.reverse
  | revResult, sec :: rest =>
    if sec.tokens < minTokens && !revResult.isEmpty then
      match revResult with
      | prev :: others =>
        let c := prev.content ++ "\n\n" ++ sec.content
        mdMergeLoop minTokens
          ({ prev with content := c, endLine := sec.endLine, tokens := estimateTokens c } :: others)
          rest
      | [] => mdMergeLoop minTokens revResult rest
    else if sec.tokens < minTokens && !rest.isEmpty then
      match rest with
      | nextSec :: more =>
        let c := sec.content ++ "\n\n" ++ nextSec.content
        mdMergeLoop minTokens revResult
          ({ nextSec with content := c, startLine := sec.startLine, tokens := estimateTokens c } :: more)
      | [] => mdMergeLoop minTokens revResult []
    else mdMergeLoop minTokens (sec :: revResult) rest
termination_by revResult l => l.length

/-- `MarkdownChunker.mergeSmallSections`. -/
def mdMergeSmallSections (minTokens : Nat) (sections : List MdSection) : List MdSection :=
  if sections.length ≤ 1 then sections else mdMergeLoop minTokens [] sections

/-- Section-to-chunk conversion (markdown_chunker.go lines 54-72):
`symbol_type` is always `"heading"`. -/
def mdSectionToChunk (metadata : FileMetadata) (sec : MdSection) : Chunk :=
  let contentHash := HashContent sec.content
  { id := GenerateChunkID metadata.projectID metadata.filePath sec.heading contentHash
    content := sec.content
    symbol := sec.heading
    symbolType := "heading"
    startLine := sec.startLine
    endLine := sec.endLine
    tokenCount := sec.tokens
    contentHash := contentHash
    filePath := metadata.filePath
    language := "markdown"
    module := metadata.module
    projectID := metadata.projectID }

/-- `MarkdownChunker.chunkAsFile`: the whole file as one chunk with
`symbol_type = "document"`, the symbol being the first heading text if any,
else the file path. -/
def mdChunkAsFile (content : String) (metadata : FileMetadata) : List Chunk :=
  let contentHash := HashContent content
  let lines := splitLines content
  let symbol := match lines.findSome? (fun l => (headingMatch l).map Prod.snd) with
    | some h => h
    | none => metadata.filePath
  [{ id := GenerateChunkID metadata.projectID metadata.filePath symbol contentHash
     content := content
     symbol := symbol
     symbolType := "document"
     startLine := 1
     endLine := lines.length
     tokenCount := estimateTokens content
     contentHash := contentHash
     filePath := metadata.filePath
     language := "markdown"
     module := metadata.module
     projectID := metadata.projectID }]

/-- `MarkdownChunker.Chunk`. -/
def mdChunk (cfg : ChunkingConfig) (content : String) (metadata : FileMetadata) : List Chunk :=
  let lines := splitLines content
  let sections := mdExtractSections lines
  if sections.isEmpty then mdChunkAsFile content metadata
  else
    let sections := if cfg.mergeSmallChunks then mdMergeSmallSections cfg.minTokens sections
                    else sections
    sections.map (mdSectionToChunk metadata)

/-! ## Regex chunkers: shared match machinery (php_chunker.go,
typescript chunker) -/

/-- A regex match as both regex chunkers record it.  The Go structs also
carry `matchStart`/`matchEnd` byte offsets, but no later code reads them,
so they are dropped here. -/
structure RxMatch where
  name : String
  symbolType : String
  lineNum : Nat
deriving Repr, DecidableEq

/-- Go regexp `\w`: ASCII letters, digits and underscore. -/
def wordChar (c : Char) : Bool := c.isAlphanum || c = '_'

/-- Consume an exact literal. -/
def dropPre : List Char → List Char → Option (List Char)
  | [], cs => some cs
  | _ :: _, [] => none
  | p :: ps, c :: cs => if c = p then dropPre ps cs else none

/-- Consume `\s+`: at least one whitespace character, maximal munch. -/
def ws1 : List Char → Option (List Char)
  | [] => none
  | c :: cs => if isWs c then some (cs.dropWhile isWs) else none

/-- Consume `(\w+)`: a non-empty word run, returning it. -/
def word1 (cs : List Char) : Option (String × List Char) :=
  let w := cs.takeWhile wordChar
  if w.isEmpty then none else some (String.mk w, cs.drop w.length)

/-- The suffixes of the text at which `(?m)^` anchors: the start of the
text and the position after every newline; the i-th entry (0-based) starts
line i+1. -/
def anchorSuffixes (cs : List Char) : List (List Char) :=
  let rec go : List Char → List (List Char)
    | [] => []
    | '\n' :: rest => rest :: go rest
    | _ :: rest => go rest
  cs :: go cs

/-- Run a single-pattern parser at every line anchor, recording the line
number of each match.  (Faithful to `FindAllStringSubmatchIndex` for
matches that stay within one line, which all the inputs considered here
do; a match spanning a newline could swallow the next anchor.) -/
def scanPattern (parse : List Char → Option String) (stype : String)
    (content : String) : List RxMatch :=
  (anchorSuffixes content.data).enum.filterMap fun (i, suf) =>
    (parse suf).map fun nm => ⟨nm, stype, i + 1⟩

/-- Insert one match into the by-line map (an association list keyed by
`lineNum`, kept in insertion order): an existing entry for the line is
replaced only by a strictly higher-priority (numerically smaller) type. -/
def dedupInsert (prio : String → Nat) (byLine : List RxMatch) (m : RxMatch) : List RxMatch :=
  if byLine.any fun e => e.lineNum == m.lineNum then
    byLine.map fun e =>
      if e.lineNum == m.lineNum && prio m.symbolType < prio e.symbolType then m else e
  else byLine ++ [m]

/-- The values of the deduplication map in insertion order.  The Go code
then iterates the map in an unspecified order; that reading order is the
universally quantified permutation in the determinism theorem. -/
def dedupValues (prio : String → Nat) (ms : List RxMatch) : List RxMatch :=
  ms.foldl (dedupInsert prio) []

/-- `PHPChunker.deduplicateMatches` priorities (missing keys read as 0). -/
def phpPriority : String → Nat
  | "class" => 1
  | "interface" => 2
  | "trait" => 3
  | "enum" => 4
  | "function" => 5
  | "method" => 6
  | "constructor" => 7
  | _ => 0

/-- `TypeScriptChunker.deduplicateMatches` priorities. -/
def tsPriority : String → Nat
  | "class" => 1
  | "interface" => 2
  | "enum" => 3
  | "type" => 4
  | "function" => 5
  | "arrow_function" => 6
  | "export_default" => 7
  | _ => 0

/-- Insert into a line-number-sorted list (stand-in for Go's unstable
`sort.Slice`; legitimate because dedup leaves the line numbers pairwise
distinct, under which every sorted reordering coincides — the C2
theorem). -/
def insertByLine (m : RxMatch) : List RxMatch → List RxMatch
  | [] => [m]
  | x :: xs => if m.lineNum ≤ x.lineNum then m :: x :: xs else x :: insertByLine m xs

/-- Sort matches by line number. -/
def sortByLine (ms : List RxMatch) : List RxMatch := ms.foldr insertByLine []

/-! ## PHP chunker (php_chunker.go) -/

/-- An extracted PHP symbol (`phpSymbol`); `ns` is its `namespace` field. -/
structure PhpSymbol where
  name : String
  symbolType : String
  startLine : Nat
  endLine : Nat
  content : String
  tokens : Nat
  ns : String
deriving Repr, DecidableEq

/-- `phpFunctionPattern` = `(?m)^function\s+(\w+)\s*\(` at one anchor. -/
def parsePhpFunction (cs : List Char) : Option String := do
  let cs ← dropPre "function".data cs
  let cs ← ws1 cs
  let (nm, cs) ← word1 cs
  match cs.dropWhile isWs with
  | '(' :: _ => some nm
  | _ => none

/-- `phpClassPattern` = `(?m)^(?:abstract\s+|final\s+)?class\s+(\w+)…\{?`
at one anchor; every group after the name is optional, so only the
modifier, the keyword and the name decide the match. -/
def parsePhpClass (cs : List Char) : Option String := do
  let cs := match (dropPre "abstract".data cs).bind ws1 with
    | some r => r
    | none => match (dropPre "final".data cs).bind ws1 with
      | some r => r
      | none => cs
  let cs ← dropPre "class".data cs
  let cs ← ws1 cs
  let (nm, _) ← word1 cs
  some nm

/-- `\s+KEYWORD\s+[\w\\,\s]+\{`: the tail shared by the `extends` /
`implements` groups followed by the required brace.  After the keyword the
pattern needs whitespace and then at least one more class character (the
class subsumes whitespace), with `{` immediately after the maximal run. -/
def parseListThenBrace (keyword : String) (cs : List Char) : Option Unit := do
  let cs ← ws1 cs
  let cs ← dropPre keyword.data cs
  match cs with
  | c :: _ =>
    if isWs c then
      let run := cs.takeWhile fun c => wordChar c || c = '\\' || c = ',' || isWs c
      if run.length ≥ 2 then
        match cs.drop run.length with
        | '{' :: _ => some ()
        | _ => none
      else none
    else none
  | [] => none

/-- `phpInterfacePattern` = `(?m)^interface\s+(\w+)(?:\s+extends\s+[\w\\,\s]+)?\s*\{`. -/
def parsePhpInterface (cs : List Char) : Option String := do
  let cs ← dropPre "interface".data cs
  let cs ← ws1 cs
  let (nm, cs) ← word1 cs
  if (parseListThenBrace "extends" cs).isSome then some nm
  else match cs.dropWhile isWs with
    | '{' :: _ => some nm
    | _ => none

/-- `phpTraitPattern` = `(?m)^trait\s+(\w+)\s*\{`. -/
def parsePhpTrait (cs : List Char) : Option String := do
  let cs ← dropPre "trait".data cs
  let cs ← ws1 cs
  let (nm, cs) ← word1 cs
  match cs.dropWhile isWs with
  | '{' :: _ => some nm
  | _ => none

/-- `phpEnumPattern` = `(?m)^enum\s+(\w+)(?:\s*:\s*\w+)?(?:\s+implements\s+[\w\\,\s]+)?\s*\{`.
The committed treatment of the two optional groups agrees with regex
backtracking because a group that matched consumes characters (`:` or
whitespace-then-`implements`) that no later part of the pattern could
match. -/
def parsePhpEnum (cs : List Char) : Option String := do
  let (nm, cs) ← (dropPre "enum".data cs).bind ws1 |>.bind word1
  let cs := match cs.dropWhile isWs with
    | ':' :: r =>
      let r := r.dropWhile isWs
      let w := r.takeWhile wordChar
      if w.isEmpty then cs else r.drop w.length
    | _ => cs
  if (parseListThenBrace "implements" cs).isSome then some nm
  else match cs.dropWhile isWs with
    | '{' :: _ => some nm
    | _ => none

/-- `PHPChunker.findAllSymbols`: the five patterns in source order, then
line-level deduplication.  The output order inside one pattern follows the
text; the overall output order is the map-iteration question settled by
the determinism theorem. -/
def phpFindAllSymbols (content : String) : List RxMatch :=
  dedupValues phpPriority
    (scanPattern parsePhpClass "class" content ++
     scanPattern parsePhpInterface "interface" content ++
     scanPattern parsePhpTrait "trait" content ++
     scanPattern parsePhpEnum "enum" content ++
     scanPattern parsePhpFunction "function" content)

/-- `phpNamespacePattern` = `(?m)^namespace\s+([\w\\]+)\s*;`, first match
(`extractNamespace`). -/
def phpExtractNamespace (content : String) : String :=
  let parse : List Char → Option String := fun cs => do
    let cs ← dropPre "namespace".data cs
    let cs ← ws1 cs
    let run := cs.takeWhile fun c => wordChar c || c = '\\'
    if run.isEmpty then none
    else match (cs.drop run.length).dropWhile isWs with
      | ';' :: _ => some (String.mk run)
      | _ => none
  match (anchorSuffixes content.data).filterMap parse with
  | nm :: _ => nm
  | [] => ""

/-- Go `strings.TrimSpace` on the ASCII inputs at hand. -/
def trimWs (s : String) : String :=
  String.mk ((s.data.dropWhile isWs).reverse.dropWhile isWs).reverse

/-- Does `pat` occur inside `s` (Go `strings.Contains`)? -/
def containsSub (s pat : String) : Bool :=
  let rec go : List Char → Bool
    | [] => pat.data.isEmpty
    | c :: rest => (dropPre pat.data (c :: rest)).isSome || go rest
  go s.data

/-- Does `s` end with `pat`? -/
def endsWith (s pat : String) : Bool :=
  (dropPre pat.data.reverse s.data.reverse).isSome

/-- Does `s` start with `pat`? -/
def startsWith (s pat : String) : Bool :=
  (dropPre pat.data s.data).isSome

/-- The inner scan of `findPrecedingComment`: from index `j` downwards,
the first line containing `/**`, returned as a 1-based line number. -/
def phpFindDocStart (lines : List String) : Nat → Option Nat
  | 0 => if containsSub (lines.getD 0 "") "/**" then some 1 else none
  | j + 1 =>
    if containsSub (lines.getD (j + 1) "") "/**" then some (j + 2)
    else phpFindDocStart lines j

/-- What one backwards step of `findPrecedingComment` decides. -/
inductive PrecStep where
  | ret (n : Nat)
  | cont (newStart : Option Nat)
  | stop

/-- One iteration of the `findPrecedingComment` loop at 0-based index `i`:
a line ending in `*/` returns the `/**` line when found (and otherwise
falls through to the remaining checks); `//` and `#[` lines move the start
up; blank lines are skipped; anything else stops the walk. -/
def phpPrecStep (lines : List String) (i : Nat) : PrecStep :=
  let line := trimWs (lines.getD i "")
  if endsWith line "*/" then
    match phpFindDocStart lines i with
    | some r => .ret r
    | none =>
      if startsWith line "//" then .cont (some (i + 1))
      else if startsWith line "#[" then .cont (some (i + 1))
      else if line = "" then .cont none
      else .stop
  else if startsWith line "//" then .cont (some (i + 1))
  else if startsWith line "#[" then .cont (some (i + 1))
  else if line = "" then .cont none
  else .stop

/-- The backwards walk of `findPrecedingComment` from index `i` with
current answer `cur`. -/
def phpPrecLoop (lines : List String) : Nat → Nat → Nat
  | cur, 0 =>
    match phpPrecStep lines 0 with
    | .ret n => n
    | .stop => cur
    | .cont upd => upd.getD cur
  | cur, i + 1 =>
    match phpPrecStep lines (i + 1) with
    | .ret n => n
    | .stop => cur
    | .cont upd => phpPrecLoop lines (upd.getD cur) i

/-- `PHPChunker.findPrecedingComment` (the caller only invokes it when
`symbolLine > 1`). -/
def phpFindPrecedingComment (lines : List String) (symbolLine : Nat) : Nat :=
  if symbolLine ≤ 1 then symbolLine
  else phpPrecLoop lines symbolLine (symbolLine - 2)

/-- Character scan of one line inside `findBraceEnd`: simple single- and
double-quoted strings are skipped (backslash-escape aware via the previous
character), braces tracked by depth.  `none` means the balancing close
brace sits on this line; otherwise the carried state is returned.  The
`inHeredoc` flag of the Go code is declared but never set, so it is not
modelled. -/
def phpScanLine : List Char → Option Char → Bool → Char → Int → Bool → Option (Int × Bool)
  | [], _, _, _, depth, fo => some (depth, fo)
  | c :: rest, prev, inStr, sc, depth, fo =>
    if !inStr && (c = '"' || c = '\'') then
      phpScanLine rest (some c) true c depth fo
    else if inStr && c = sc && (prev.isNone || prev ≠ some '\\') then
      phpScanLine rest (some c) false sc depth fo
    else if inStr then
      phpScanLine rest (some c) inStr sc depth fo
    else if c = '{' then
      phpScanLine rest (some c) inStr sc (depth + 1) true
    else if c = '}' then
      if fo && depth - 1 = 0 then none
      else phpScanLine rest (some c) inStr sc (depth - 1) fo
    else
      phpScanLine rest (some c) inStr sc depth fo

/-- The line loop of `findBraceEnd`, carrying depth and the
`foundOpen` flag; `i` is the 1-based number of the line at the head. -/
def phpBraceLoop : List String → Int → Bool → Nat → Option Nat
  | [], _, _, _ => none
  | line :: rest, depth, fo, i =>
    match phpScanLine line.data none false ' ' depth fo with
    | none => some i
    | some (d, f) => phpBraceLoop rest d f (i + 1)

/-- `PHPChunker.findBraceEnd`: scan from `startLine`; when no balancing
brace is ever found, fall back to `startLine + 100`. -/
def phpFindBraceEnd (lines : List String) (startLine : Nat) : Nat :=
  match phpBraceLoop (lines.drop (startLine - 1)) 0 false startLine with
  | some n => n
  | none => startLine + 100

/-- `PHPChunker.extractLines`: the 1-indexed inclusive slice, clamped, as
a newline join. -/
def phpExtractLines (lines : List String) (startLine endLine : Nat) : String :=
  let s := if startLine < 1 then 1 else startLine
  let e := if endLine > lines.length then lines.length else endLine
  if s > e then ""
  else String.intercalate "\n" ((lines.drop (s - 1)).take (e - s + 1))

/-- `PHPChunker.extractSymbolBoundaries`: per match, extend the start over
preceding comments, find the brace end, clamp against the next match's
anchor line and the file end, and floor at the start line. -/
def phpExtractBoundaries (lines : List String) (ns : String) : List RxMatch → List PhpSymbol
  | [] => []
  | m :: rest =>
    let startLine := if m.lineNum > 1 then phpFindPrecedingComment lines m.lineNum else m.lineNum
    let endLine := phpFindBraceEnd lines m.lineNum
    let endLine := match rest with
      | next :: _ => if endLine ≥ next.lineNum then next.lineNum - 1 else endLine
      | [] => endLine
    let endLine := if endLine > lines.length then lines.length else endLine
    let endLine := if endLine < startLine then startLine else endLine
    let content := phpExtractLines lines startLine endLine
    ⟨m.name, m.symbolType, startLine, endLine, content, estimateTokens content, ns⟩ ::
      phpExtractBoundaries lines ns rest

/-- The loop of `PHPChunker.mergeSmallSymbols`: a single `pending`
accumulator of small symbols; a large symbol absorbs `pending` as a prefix
only when the combined token count stays within `MaxTokens`, otherwise
`pending` is emitted on its own (unchanged in type); a trailing `pending`
is emitted on its own. -/
def phpMergeLoop (cfg : ChunkingConfig) :
    Option PhpSymbol → List PhpSymbol → List PhpSymbol → List PhpSymbol
  | pending, revResult, [] =>
    (match pending with
     | some p => p :: revResult
     | none => revResult).reverse
  | pending, revResult, sym :: rest =>
    if sym.tokens < cfg.minTokens then
      match pending with
      | none => phpMergeLoop cfg (some sym) revResult rest
      | some p =>
        let c := p.content ++ "\n\n" ++ sym.content
        phpMergeLoop cfg
          (some { p with content := c, endLine := sym.endLine,
                         tokens := estimateTokens c, name := p.name ++ "+" ++ sym.name })
          revResult rest
    else
      match pending with
      | none => phpMergeLoop cfg none (sym :: revResult) rest
      | some p =>
        if p.tokens + sym.tokens ≤ cfg.maxTokens then
          let c := p.content ++ "\n\n" ++ sym.content
          phpMergeLoop cfg none
            ({ sym with content := c, startLine := p.startLine,
                        tokens := estimateTokens c } :: revResult) rest
        else
          phpMergeLoop cfg none (sym :: p :: revResult) rest

/-- `PHPChunker.mergeSmallSymbols`. -/
def phpMergeSmallSymbols (cfg : ChunkingConfig) (symbols : List PhpSymbol) : List PhpSymbol :=
  if symbols.length ≤ 1 then symbols else phpMergeLoop cfg none [] symbols

/-- Symbol-to-chunk conversion (php_chunker.go lines 110-134): class
symbols inside a namespace get a qualified display symbol, the id is built
from the bare name, the namespace becomes the module. -/
def phpSymbolToChunk (metadata : FileMetadata) (sym : PhpSymbol) : Chunk :=
  let contentHash := HashContent sym.content
  let symbolName := if sym.ns ≠ "" && sym.symbolType == "class"
    then sym.ns ++ "\\" ++ sym.name else sym.name
  { id := GenerateChunkID metadata.projectID metadata.filePath sym.name contentHash
    content := sym.content
    symbol := symbolName
    symbolType := sym.symbolType
    startLine := sym.startLine
    endLine := sym.endLine
    tokenCount := sym.tokens
    contentHash := contentHash
    filePath := metadata.filePath
    language := "php"
    module := sym.ns
    projectID := metadata.projectID }

/-- `PHPChunker.chunkAsFile`: one chunk with `symbol_type = "file"`,
symbol the file path, covering lines 1 to `strings.Count(s, "\n") + 1`. -/
def phpChunkAsFile (content : String) (metadata : FileMetadata) : List Chunk :=
  let contentHash := HashContent content
  [{ id := GenerateChunkID metadata.projectID metadata.filePath metadata.filePath contentHash
     content := content
     symbol := metadata.filePath
     symbolType := "file"
     startLine := 1
     endLine := newlineCountPlus1 content
     tokenCount := estimateTokens content
     contentHash := contentHash
     filePath := metadata.filePath
     language := "php"
     module := metadata.module
     projectID := metadata.projectID }]

/-- The PHP pipeline from the sorted match list onwards: boundary
extraction, optional small-symbol merging, chunk conversion. -/
def phpChunksFromSorted (cfg : ChunkingConfig) (metadata : FileMetadata)
    (lines : List String) (ns : String) (sorted : List RxMatch) : List Chunk :=
  let symbols := phpExtractBoundaries lines ns sorted
  let symbols := if cfg.mergeSmallChunks then phpMergeSmallSymbols cfg symbols else symbols
  symbols.map (phpSymbolToChunk metadata)

/-- `PHPChunker.Chunk`: namespace extraction, symbol scan with
deduplication, sort by line, boundaries, merge, conversion — with the
file-level fallback when no symbol matches. -/
def phpChunk (cfg : ChunkingConfig) (content : String) (metadata : FileMetadata) : List Chunk :=
  let lines := splitLines content
  let ns := phpExtractNamespace content
  let ms := phpFindAllSymbols content
  if ms.isEmpty then phpChunkAsFile content metadata
  else phpChunksFromSorted cfg metadata lines ns (sortByLine ms)

/-! ## TypeScript chunker fallback (typescript chunker `chunkAsFile`) -/

/-- `TypeScriptChunker.chunkAsFile`: one chunk with `symbol_type = "file"`,
symbol the file path, lines 1 to `strings.Count(s, "\n") + 1`. -/
def tsChunkAsFile (content : String) (metadata : FileMetadata) : List Chunk :=
  let contentHash := HashContent content
  [{ id := GenerateChunkID metadata.projectID metadata.filePath metadata.filePath contentHash
     content := content
     symbol := metadata.filePath
     symbolType := "file"
     startLine := 1
     endLine := newlineCountPlus1 content
     tokenCount := estimateTokens content
     contentHash := contentHash
     filePath := metadata.filePath
     language := metadata.language
     module := metadata.module
     projectID := metadata.projectID }]

/-! ## Go chunker (go_chunker.go): symbol merging and file fallback.

The AST extraction itself calls Go's `go/parser`, an external component;
the merge policy and the file-level fallback below are the parts the
claims bear on, and they are translated directly. -/

/-- An extracted Go symbol (`goSymbol`). -/
structure GoSymbol where
  name : String
  symbolType : String
  startLine : Nat
  endLine : Nat
  content : String
  tokens : Nat
deriving Repr, DecidableEq

/-- `GoChunker.mergeInto`: join the pending small symbols onto a larger
target — content concatenated with blank-line separators, tokens
recomputed, the line range widened to the union, and the name suffixed
with `+N`.  No `MaxTokens` check appears anywhere in this function or its
caller. -/
def goMergeInto (target : GoSymbol) (small : List GoSymbol) : GoSymbol :=
  let c := String.intercalate "\n\n" (target.content :: small.map (·.content))
  let startLine := small.foldl (fun acc s => if s.startLine < acc then s.startLine else acc)
    target.startLine
  let endLine := small.foldl (fun acc s => if s.endLine > acc then s.endLine else acc)
    target.endLine
  let name := if small.isEmpty then target.name
    else target.name ++ "+" ++ toString small.length
  { target with content := c, tokens := estimateTokens c,
                startLine := startLine, endLine := endLine, name := name }

/-- `GoChunker.combineSymbols`: all-small fallback, producing a single
`"combined"` symbol spanning the union of the inputs. -/
def goCombineSymbols (symbols : List GoSymbol) : GoSymbol :=
  match symbols with
  | [] => ⟨"", "", 0, 0, "", 0⟩
  | s0 :: _ =>
    let c := String.intercalate "\n\n" (symbols.map (·.content))
    ⟨String.intercalate "+" (symbols.map (·.name)), "combined",
     symbols.foldl (fun acc s => if s.startLine < acc then s.startLine else acc) s0.startLine,
     symbols.foldl (fun acc s => if s.endLine > acc then s.endLine else acc) s0.endLine,
     c, estimateTokens c⟩

/-- The loop of `GoChunker.mergeSmallSymbols`: small symbols accumulate in
`pendingSmall`; a large symbol unconditionally absorbs the pending run; at
the end a leftover run is merged into the last emitted symbol, or — when
nothing was emitted — combined into one `"combined"` symbol. -/
def goMergeLoop (cfg : ChunkingConfig) :
    List GoSymbol → List GoSymbol → List GoSymbol → List GoSymbol
  | pending, revResult, [] =>
    if pending.isEmpty then revResult.reverse
    else match revResult with
      | last :: others => (goMergeInto last pending :: others).reverse
      | [] => [goCombineSymbols pending]
  | pending, revResult, sym :: rest =>
    if sym.tokens < cfg.minTokens then goMergeLoop cfg (pending ++ [sym]) revResult rest
    else
      let sym := if pending.isEmpty then sym else goMergeInto sym pending
      goMergeLoop cfg [] (sym :: revResult) rest

/-- `GoChunker.mergeSmallSymbols`. -/
def goMergeSmallSymbols (cfg : ChunkingConfig) (symbols : List GoSymbol) : List GoSymbol :=
  if symbols.length ≤ 1 then symbols
  else goMergeLoop cfg [] [] symbols

/-- Go `filepath.Base`. -/
def baseName (path : String) : String :=
  if path = "" then "."
  else
    let trimmed := (path.data.reverse.dropWhile (· = '/')).reverse
    if trimmed.isEmpty then "/"
    else String.mk (trimmed.reverse.takeWhile (· ≠ '/')).reverse

/-- `GoChunker.chunkAsFile`: one chunk with `symbol_type = "file"`, symbol
the path's base name, lines 1 to `strings.Count(s, "\n") + 1`. -/
def goChunkAsFile (content : String) (metadata : FileMetadata) : List Chunk :=
  let contentHash := HashContent content
  let symbol := baseName metadata.filePath
  [{ id := GenerateChunkID metadata.projectID metadata.filePath symbol contentHash
     content := content
     symbol := symbol
     symbolType := "file"
     startLine := 1
     endLine := newlineCountPlus1 content
     tokenCount := estimateTokens content
     contentHash := contentHash
     filePath := metadata.filePath
     language := "go"
     module := metadata.module
     projectID := metadata.projectID }]

/-! ## Cache (the per-project cache in the indexer package) -/

/-- A cache entry (`indexer.CacheEntry`).  The struct has exactly these
four fields; in particular it carries no map from chunk id to chunk
content hash.  Timestamps are opaque naturals. -/
structure CacheEntry where
  contentHash : String
  modTime : Nat
  indexedAt : Nat
  chunkIDs : List String
deriving Repr, DecidableEq

/-- The in-memory cache: the path-to-entry map plus the dirty flag that
gates `Save`.  A freshly constructed or freshly loaded cache is clean. -/
structure CacheState where
  entries : List (String × CacheEntry)
  dirty : Bool
deriving Repr, DecidableEq

/-- `NewCache` / `load`: entries from disk (or none), dirty flag off —
`load` assigns only `c.entries`. -/
def cacheLoad (loaded : List (String × CacheEntry)) : CacheState := ⟨loaded, false⟩

/-- `Cache.Get`. -/
def cacheGet (c : CacheState) (filePath : String) : Option CacheEntry :=
  (c.entries.find? fun e => e.1 == filePath).map Prod.snd

/-- `Cache.Set`: update or create, and mark dirty. -/
def cacheSet (c : CacheState) (filePath : String) (entry : CacheEntry) : CacheState :=
  if c.entries.any fun e => e.1 == filePath then
    ⟨c.entries.map fun e => if e.1 == filePath then (filePath, entry) else e, true⟩
  else ⟨c.entries ++ [(filePath, entry)], true⟩

/-- `Cache.Delete`: remove and mark dirty. -/
def cacheDelete (c : CacheState) (filePath : String) : CacheState :=
  ⟨c.entries.filter fun e => e.1 ≠ filePath, true⟩

/-- `Cache.Clear`: drop everything and mark dirty. -/
def cacheClear (c : CacheState) : CacheState := ⟨[], true⟩

/-- `Cache.HasChanged`: true when the path is unknown or its stored
content hash differs. -/
def cacheHasChanged (c : CacheState) (filePath contentHash : String) : Bool :=
  match cacheGet c filePath with
  | none => true
  | some entry => entry.contentHash != contentHash

/-- `Cache.GetChunkIDs` (`nil` for an unknown path becomes `[]`). -/
def cacheGetChunkIDs (c : CacheState) (filePath : String) : List String :=
  match cacheGet c filePath with
  | none => []
  | some entry => entry.chunkIDs

/-- The JSON document `Save` writes. -/
structure CacheFile where
  projectID : String
  updatedAt : Nat
  files : List (String × CacheEntry)
deriving Repr, DecidableEq

/-- `Cache.Save`: when the dirty flag is off, return immediately without
touching the file; otherwise write the document (atomically, via temp file
and rename — not modelled further).  `none` means the on-disk bytes are
untouched. -/
def cacheSave (c : CacheState) (projectID : String) (now : Nat) : Option CacheFile :=
  if c.dirty then some ⟨projectID, now, c.entries⟩ else none

/-! ## Indexer core (indexer.go) -/

/-- An oversized-chunk report row (`indexer.OversizedChunk`). -/
structure OversizedChunk where
  filePath : String
  symbol : String
  tokenCount : Nat
  maxAllowed : Nat
  contentSize : Nat
deriving Repr, DecidableEq

/-- The worker's oversize estimate, `int(float64(len(content)) / 2.5)`
(processFiles, `charsPerToken = 2.5`).  For every length below `2^52` the
float64 division truncates to exactly `2*n/5`: when `2n/5` is an integer
the quotient is that integer and is represented exactly, and otherwise the
exact quotient has fractional part at least `1/5`, far beyond the rounding
error, so truncation is unaffected. -/
def workerTokenEstimate (contentLen : Nat) : Nat := 2 * contentLen / 5

/-- The embedding-model token ceiling (`maxTokens` constant in
`processFiles`). -/
def indexerMaxTokens : Nat := 2048

/-- The oversize rows one file's chunk list contributes (the loop in
`processFiles` lines 408-421): a chunk is recorded exactly when the worker
estimate exceeds the ceiling. -/
def oversizedEntriesOf (relPath : String) (chunks : List Chunk) : List OversizedChunk :=
  chunks.filterMap fun c =>
    let est := workerTokenEstimate (byteLen c.content)
    if est > indexerMaxTokens then
      some ⟨relPath, c.symbol, est, indexerMaxTokens, byteLen c.content⟩
    else none

/-- What one worker reports for one file (`fileResult`). -/
structure FileResult where
  relPath : String
  chunks : List Chunk
  hash : String
  isErr : Bool
deriving Repr, DecidableEq

/-- The result-collection stage of `processFiles` (lines 444-470): each
successful file contributes all of its chunks to the batch that will be
embedded and upserted, and its cache entry is replaced by one holding the
file hash and the new chunk-id list.  No cached chunk hash is consulted,
and no per-chunk vector-store delete is issued anywhere in this stage. -/
def collectChunks (results : List FileResult) : List Chunk :=
  (results.filter fun r => !r.isErr).flatMap (·.chunks)

/-- The cache updates of the collection stage. -/
def collectCache (cache : CacheState) (results : List FileResult) (now : Nat) : CacheState :=
  results.foldl
    (fun c r =>
      if r.isErr then c
      else cacheSet c r.relPath ⟨r.hash, now, now, r.chunks.map (·.id)⟩)
    cache

/-- Ids staged for deletion by the collection stage: there is no such
path in the code — deletes happen only for files that disappeared
(`findDeletedFiles`), never per chunk of a changed file. -/
def collectDeletes (_ : CacheState) (_ : List FileResult) : List String := []

/-- Modelled from the spec (§4.3.1 step 7): the chunk-level diff the
specification prescribes for one changed file — `prev` the cached
chunk-hash map, `curr` the freshly emitted `(id, hash)` pairs; ids only in
`prev` are deleted, ids in both with equal hash are skipped, the rest are
embedded.  This definition follows the spec's words and exists to be
compared with the collection stage above; nothing in src implements it
(CacheEntry has no chunk-hash map). -/
def specChunkDiff (prev : List (String × String)) (curr : List (String × String)) :
    List String × List String × List String :=
  let deleted := (prev.filter fun p => ¬ curr.any fun c => c.1 = p.1).map Prod.fst
  let unchanged := (curr.filter fun c => prev.any fun p => p.1 = c.1 ∧ p.2 = c.2).map Prod.fst
  let changedOrNew := (curr.filter fun c => ¬ prev.any fun p => p.1 = c.1 ∧ p.2 = c.2).map Prod.fst
  (deleted, unchanged, changedOrNew)

/-- The incremental-run cache traffic of `IndexProject` (steps 4 and 5 plus
the collection stage): tombstone-delete cached paths absent from
discovery, then process each discovered file — skipped when the hash is
unchanged, otherwise its entry is rewritten with freshly chunked ids. -/
def incrementalCachePass (cache : CacheState) (discovered : List (String × String))
    (chunkIdsOf : String → List String) (now : Nat) : CacheState :=
  let stale := (cache.entries.map Prod.fst).filter fun p => ¬ discovered.any fun d => d.1 = p
  let cache := stale.foldl cacheDelete cache
  discovered.foldl
    (fun c d =>
      if cacheHasChanged c d.1 d.2 then cacheSet c d.1 ⟨d.2, now, now, chunkIdsOf d.1⟩
      else c)
    cache

/-! ## C2: map-iteration order cannot change the chunk output -/

/-- Line numbers sorted weakly — what Go's `sort.Slice(…, lineNum <)`
guarantees about its (unstable, hence otherwise unspecified) output. -/
def sortedByLine (ms : List RxMatch) : Prop :=
  ms.Pairwise fun a b => a.lineNum ≤ b.lineNum

instance : DecidablePred sortedByLine := fun ms =>
  inferInstanceAs (Decidable (ms.Pairwise _))

theorem dedupInsert_keys_nodup (prio : String → Nat) (l : List RxMatch) (m : RxMatch)
    (h : (l.map (·.lineNum)).Nodup) :
    ((dedupInsert prio l m).map (·.lineNum)).Nodup := by
  unfold dedupInsert
  split
  · have hkey : ∀ e ∈ l,
        ((fun e => if e.lineNum == m.lineNum && prio m.symbolType < prio e.symbolType then m
          else e) e).lineNum = e.lineNum := by
      intro e _
      simp only
      split
      · next hcond =>
        simp only [Bool.and_eq_true, beq_iff_eq, decide_eq_true_eq] at hcond
        exact hcond.1.symm
      · rfl
    have hmap : (l.map fun e =>
        if e.lineNum == m.lineNum && prio m.symbolType < prio e.symbolType then m
        else e).map (·.lineNum) = l.map (·.lineNum) := by
      rw [List.map_map]
      exact List.map_congr_left hkey
    rw [hmap]
    exact h
  · next hnone =>
    have hm : m.lineNum ∉ l.map (·.lineNum) := by
      intro hmem
      rcases List.mem_map.mp hmem with ⟨e, he, hkey⟩
      exact hnone (List.any_eq_true.mpr ⟨e, he, by simp [hkey]⟩)
    simp only [List.map_append, List.map_cons, List.map_nil]
    exact List.Nodup.append h (List.nodup_singleton _)
      (by simpa [List.disjoint_singleton] using hm)

theorem dedupValues_keys_nodup (prio : String → Nat) (ms : List RxMatch) :
    ((dedupValues prio ms).map (·.lineNum)).Nodup := by
  suffices h : ∀ acc : List RxMatch, (acc.map (·.lineNum)).Nodup →
      ((ms.foldl (dedupInsert prio) acc).map (·.lineNum)).Nodup by
    exact h [] (by simp)
  induction ms with
  | nil => intro acc hacc; simpa using hacc
  | cons m rest ih =>
    intro acc hacc
    exact ih _ (dedupInsert_keys_nodup prio acc m hacc)

/-- Two sorted lists that are permutations of each other and whose line
numbers are pairwise distinct are equal — the reason the Go map iteration
in `deduplicateMatches` followed by the (unstable) sort is harmless. -/
theorem sorted_perm_nodup_eq :
    ∀ l1 l2 : List RxMatch, l1.Perm l2 → sortedByLine l1 → sortedByLine l2 →
      (l1.map (·.lineNum)).Nodup → l1 = l2 := by
  intro l1
  induction l1 with
  | nil => intro l2 hp _ _ _; exact (hp.nil_eq).symm ▸ rfl
  | cons a t1 ih =>
    intro l2 hp hs1 hs2 hnd
    match l2 with
    | [] => exact absurd hp.symm.nil_eq (by simp)
    | b :: t2 =>
      have hab : a = b := by
        by_contra hne
        have ha2 : a ∈ b :: t2 := hp.mem_iff.mp (by simp)
        have hb1 : b ∈ a :: t1 := hp.symm.mem_iff.mp (by simp)
        have hat2 : a ∈ t2 := by
          rcases ha2 with _ | h
          · exact absurd rfl hne
          · assumption
        have hbt1 : b ∈ t1 := by
          rcases hb1 with _ | h
          · exact absurd rfl (fun h => hne h.symm)
          · assumption
        have h1 : a.lineNum ≤ b.lineNum :=
          (List.pairwise_cons.mp hs1).1 b hbt1
        have h2 : b.lineNum ≤ a.lineNum :=
          (List.pairwise_cons.mp hs2).1 a hat2
        have heq : a.lineNum = b.lineNum := Nat.le_antisymm h1 h2
        have : a.lineNum ∉ t1.map (·.lineNum) := (List.nodup_cons.mp hnd).1
        exact this (heq ▸ List.mem_map.mpr ⟨b, hbt1, rfl⟩)
      subst hab
      have hpt : t1.Perm t2 := hp.cons_inv
      have := ih t2 hpt (List.pairwise_cons.mp hs1).2 (List.pairwise_cons.mp hs2).2
        (List.nodup_cons.mp hnd).2
      rw [this]

/-- C2.  For a fixed input, the regex chunkers' output is independent of
the order in which Go iterates the deduplication map (and of how the
unstable sort breaks ties, of which there are none): any two sorted
readings of the deduplicated PHP match set drive the rest of the PHP
pipeline to the same chunk sequence, and any two sorted readings of the
deduplicated TypeScript match set are equal outright.  All other stages of
`Chunk` are pure functions of the input, so two invocations return
identical ordered `(id, content_hash, start_line, end_line)` tuples. -/
theorem regex_chunker_deterministic
    (cfg : ChunkingConfig) (metadata : FileMetadata) (lines : List String) (ns : String)
    (msPhp msTs : List RxMatch) (r1 r2 s1 s2 : List RxMatch)
    (h1 : r1.Perm (dedupValues phpPriority msPhp)) (hs1 : sortedByLine r1)
    (h2 : r2.Perm (dedupValues phpPriority msPhp)) (hs2 : sortedByLine r2)
    (h3 : s1.Perm (dedupValues tsPriority msTs)) (ht1 : sortedByLine s1)
    (h4 : s2.Perm (dedupValues tsPriority msTs)) (ht2 : sortedByLine s2) :
    phpChunksFromSorted cfg metadata lines ns r1 =
      phpChunksFromSorted cfg metadata lines ns r2 ∧ s1 = s2 := by
  have hr : r1 = r2 :=
    sorted_perm_nodup_eq r1 r2 (h1.trans h2.symm) hs1 hs2
      (h1.map (·.lineNum) |>.nodup_iff.mpr (dedupValues_keys_nodup _ _))
  have hs : s1 = s2 :=
    sorted_perm_nodup_eq s1 s2 (h3.trans h4.symm) ht1 ht2
      (h3.map (·.lineNum) |>.nodup_iff.mpr (dedupValues_keys_nodup _ _))
  exact ⟨hr ▸ rfl, hs⟩

/-- C2 witness: a concrete match set with a duplicate line (class beats
function) and a second line; both sorted readings coincide and the PHP
pipeline agrees. -/
theorem regex_chunker_deterministic_witness :
    phpChunksFromSorted ⟨50, 200, 500, false⟩ ⟨"t.php", "php", "", "p"⟩
        ["class A \x7b", "\x7d", "function f() \x7b"] ""
        [⟨"A", "class", 1⟩, ⟨"f", "function", 3⟩] =
      phpChunksFromSorted ⟨50, 200, 500, false⟩ ⟨"t.php", "php", "", "p"⟩
        ["class A \x7b", "\x7d", "function f() \x7b"] ""
        [⟨"A", "class", 1⟩, ⟨"f", "function", 3⟩] ∧
    ([⟨"x", "type", 2⟩] : List RxMatch) = [⟨"x", "type", 2⟩] :=
  regex_chunker_deterministic ⟨50, 200, 500, false⟩ ⟨"t.php", "php", "", "p"⟩
    ["class A \x7b", "\x7d", "function f() \x7b"] ""
    [⟨"A", "function", 1⟩, ⟨"A", "class", 1⟩, ⟨"f", "function", 3⟩]
    [⟨"x", "arrow_function", 2⟩, ⟨"x", "type", 2⟩]
    [⟨"A", "class", 1⟩, ⟨"f", "function", 3⟩] [⟨"A", "class", 1⟩, ⟨"f", "function", 3⟩]
    [⟨"x", "type", 2⟩] [⟨"x", "type", 2⟩]
    (by decide) (by decide) (by decide) (by decide)
    (by decide) (by decide) (by decide) (by decide)

/-! ## C3: behaviour when no symbol is extracted -/

theorem splitLinesAux_ne_nil (cs acc : List Char) : splitLinesAux cs acc ≠ [] := by
  induction cs generalizing acc with
  | nil => simp [splitLinesAux]
  | cons c rest ih =>
    by_cases h : c = '\n'
    · subst h; simp [splitLinesAux]
    · rw [splitLinesAux]
      · exact ih _
      · exact h

theorem splitLines_ne_nil (s : String) : splitLines s ≠ [] := splitLinesAux_ne_nil _ _

/-- Running the extraction loop over heading-free lines only grows the
open section: every line is appended to its content, and it closes at the
last line. -/
theorem mdExtractLoop_no_heading (rest : List String) :
    ∀ (n : Nat) (sec : MdSection) (acc : List MdSection), 1 ≤ n →
    (∀ line ∈ rest, headingMatch line = none) →
    mdExtractLoop rest n (some sec) acc =
      (mdClose { sec with content := rest.foldl (fun c l => c ++ "\n" ++ l) sec.content }
        (n - 1 + rest.length) :: acc).reverse := by
  induction rest with
  | nil =>
    intro n sec acc _ _
    simp [mdExtractLoop]
  | cons line rest' ih =>
    intro n sec acc hn hnone
    have hline : headingMatch line = none := hnone line (by simp)
    rw [mdExtractLoop, hline]
    rw [ih (n + 1) _ acc (by omega) (fun l hl => hnone l (by simp [hl]))]
    have harith : n + 1 - 1 + rest'.length = n - 1 + (line :: rest').length := by
      simp only [List.length_cons]; omega
    rw [harith]
    rfl

/-- C3 counterexample: the markdown chunker never emits a `"file"` chunk.
On the heading-free file `"hello"` the heading pass extracts no heading
symbol, yet `Chunk` returns a single chunk typed `"heading"` (the
synthetic `"(intro)"` section); and the chunker's own file-level fallback
function types its chunk `"document"`. -/
theorem md_fallback_not_file_counterexample :
    ((splitLines "hello").all fun line => (headingMatch line).isNone) = true ∧
    ((mdChunk ⟨200, 500, 800, true⟩ "hello" ⟨"notes.md", "markdown", "", "p"⟩).map
        fun c => (c.symbolType, c.symbol, c.startLine, c.endLine))
      = [("heading", "(intro)", 1, 1)] ∧
    ((mdChunkAsFile "hello" ⟨"notes.md", "markdown", "", "p"⟩).map fun c => c.symbolType)
      = ["document"] ∧
    ("heading" : String) ≠ "file" ∧ ("document" : String) ≠ "file" := by
  refine ⟨by decide, by decide, by decide, by decide, by decide⟩

/-- C3 amended.  The PHP chunker (and equally the TypeScript and Go
file-level fallbacks) emits exactly one chunk with `symbol_type = "file"`,
`start_line = 1` and `end_line` the file's line count when symbol
extraction finds nothing; the markdown chunker instead wraps a heading-free
file into a single synthetic `"(intro)"` section typed `"heading"` covering
lines 1..N (its `chunkAsFile`, which would be typed `"document"`, is
unreachable because every file yields at least one section). -/
theorem chunker_no_symbol_fallback :
    (∀ cfg content metadata, phpFindAllSymbols content = [] →
      phpChunk cfg content metadata = phpChunkAsFile content metadata ∧
      ∃ c, phpChunkAsFile content metadata = [c] ∧ c.symbolType = "file" ∧
        c.startLine = 1 ∧ c.endLine = newlineCountPlus1 content) ∧
    (∀ content metadata, ∃ c, tsChunkAsFile content metadata = [c] ∧
      c.symbolType = "file" ∧ c.startLine = 1 ∧ c.endLine = newlineCountPlus1 content) ∧
    (∀ content metadata, ∃ c, goChunkAsFile content metadata = [c] ∧
      c.symbolType = "file" ∧ c.startLine = 1 ∧ c.endLine = newlineCountPlus1 content) ∧
    (∀ cfg content metadata, (∀ line ∈ splitLines content, headingMatch line = none) →
      ∃ c, mdChunk cfg content metadata = [c] ∧ c.symbolType = "heading" ∧
        c.symbol = "(intro)" ∧ c.startLine = 1 ∧
        c.endLine = (splitLines content).length) := by
  refine ⟨?_, ?_, ?_, ?_⟩
  · intro cfg content metadata hnone
    constructor
    · simp [phpChunk, hnone]
    · exact ⟨_, rfl, rfl, rfl, rfl⟩
  · intro content metadata
    exact ⟨_, rfl, rfl, rfl, rfl⟩
  · intro content metadata
    exact ⟨_, rfl, rfl, rfl, rfl⟩
  · intro cfg content metadata hnone
    match hls : splitLines content with
    | [] => exact absurd hls (splitLines_ne_nil content)
    | l0 :: rest =>
      have hl0 : headingMatch l0 = none := hnone l0 (by rw [hls]; simp)
      have hsec : mdExtractSections (l0 :: rest) =
          [mdClose { heading := "(intro)", level := 0, startLine := 1, endLine := 0,
                     content := rest.foldl (fun c l => c ++ "\n" ++ l) l0, tokens := 0 }
            (1 + rest.length)] := by
        rw [mdExtractSections, mdExtractLoop, hl0]
        rw [mdExtractLoop_no_heading rest 2 _ [] (by omega)
          (fun l hl => hnone l (by rw [hls]; simp [hl]))]
        rfl
      have hchunk : mdChunk cfg content metadata =
          [mdSectionToChunk metadata
            (mdClose { heading := "(intro)", level := 0, startLine := 1, endLine := 0,
                       content := rest.foldl (fun c l => c ++ "\n" ++ l) l0, tokens := 0 }
              (1 + rest.length))] := by
        rw [mdChunk, hls, hsec]
        simp [mdMergeSmallSections]
      refine ⟨_, hchunk, rfl, rfl, rfl, ?_⟩
      show 1 + rest.length = (l0 :: rest).length
      rw [List.length_cons]
      omega

/-- C3 amended witness: a symbol-free text file takes the PHP file-level
fallback, and a heading-free markdown file becomes one `"(intro)"` heading
chunk. -/
theorem chunker_no_symbol_fallback_witness :
    (phpChunk ⟨50, 200, 500, true⟩ "plain text\nno php here" ⟨"a.php", "php", "", "p"⟩ =
      phpChunkAsFile "plain text\nno php here" ⟨"a.php", "php", "", "p"⟩) ∧
    ((mdChunk ⟨50, 200, 500, true⟩ "hello" ⟨"n.md", "markdown", "", "p"⟩).map
        fun c => (c.symbolType, c.symbol, c.startLine, c.endLine))
      = [("heading", "(intro)", 1, (splitLines "hello").length)] := by
  constructor
  · exact (chunker_no_symbol_fallback.1 ⟨50, 200, 500, true⟩ "plain text\nno php here"
      ⟨"a.php", "php", "", "p"⟩ (by decide)).1
  · obtain ⟨c, hceq, h1, h2, h3, h4⟩ :=
      chunker_no_symbol_fallback.2.2.2 ⟨50, 200, 500, true⟩ "hello"
        ⟨"n.md", "markdown", "", "p"⟩ (by decide)
    rw [hceq]
    simp [h1, h2, h3, h4]

/-! ## C4: line-range disjointness -/

theorem phpFindDocStart_le (lines : List String) :
    ∀ j r, phpFindDocStart lines j = some r → r ≤ j + 1 := by
  intro j
  induction j with
  | zero =>
    intro r h
    rw [phpFindDocStart] at h
    split at h
    · simp at h; omega
    · simp at h
  | succ j' ih =>
    intro r h
    rw [phpFindDocStart] at h
    split at h
    · simp at h; omega
    · exact Nat.le_trans (ih r h) (by omega)

theorem phpPrecStep_ret_le (lines : List String) (i n : Nat) :
    phpPrecStep lines i = .ret n → n ≤ i + 1 := by
  intro h
  unfold phpPrecStep at h
  by_cases h1 : endsWith (trimWs (lines.getD i "")) "*/"
  · rw [if_pos h1] at h
    split at h
    · next r heq =>
      injection h with h'
      subst h'
      exact phpFindDocStart_le lines i _ heq
    · split at h
      · exact absurd h (by simp)
      split at h
      · exact absurd h (by simp)
      split at h
      · exact absurd h (by simp)
      · exact absurd h (by simp)
  · rw [if_neg h1] at h
    split at h
    · exact absurd h (by simp)
    split at h
    · exact absurd h (by simp)
    split at h
    · exact absurd h (by simp)
    · exact absurd h (by simp)

theorem phpPrecStep_cont (lines : List String) (i : Nat) (upd : Option Nat) :
    phpPrecStep lines i = .cont upd → upd = none ∨ upd = some (i + 1) := by
  intro h
  unfold phpPrecStep at h
  by_cases h1 : endsWith (trimWs (lines.getD i "")) "*/"
  · rw [if_pos h1] at h
    split at h
    · exact absurd h (by simp)
    · split at h
      · injection h with h'; exact Or.inr h'.symm
      split at h
      · injection h with h'; exact Or.inr h'.symm
      split at h
      · injection h with h'; exact Or.inl h'.symm
      · exact absurd h (by simp)
  · rw [if_neg h1] at h
    split at h
    · injection h with h'; exact Or.inr h'.symm
    split at h
    · injection h with h'; exact Or.inr h'.symm
    split at h
    · injection h with h'; exact Or.inl h'.symm
    · exact absurd h (by simp)

theorem phpPrecLoop_le (lines : List String) :
    ∀ i cur n, cur ≤ n → i + 1 ≤ n → phpPrecLoop lines cur i ≤ n := by
  intro i
  induction i with
  | zero =>
    intro cur n hcur hi
    rw [phpPrecLoop]
    split
    · next m heq => exact Nat.le_trans (phpPrecStep_ret_le lines 0 m heq) hi
    · exact hcur
    · next upd heq =>
      rcases phpPrecStep_cont lines 0 upd heq with h | h <;> subst h <;> simp
      · exact hcur
      · omega
  | succ i' ih =>
    intro cur n hcur hi
    rw [phpPrecLoop]
    split
    · next m heq => exact Nat.le_trans (phpPrecStep_ret_le lines (i' + 1) m heq) hi
    · exact hcur
    · next upd heq =>
      rcases phpPrecStep_cont lines (i' + 1) upd heq with h | h <;> subst h
      · exact ih cur n hcur (by omega)
      · exact ih _ n (by simp; omega) (by omega)

/-- The comment extension never moves a start line past the anchor line:
`findPrecedingComment` returns a value at most `symbolLine`. -/
theorem phpFindPrecedingComment_le (lines : List String) (symbolLine : Nat) :
    phpFindPrecedingComment lines symbolLine ≤ symbolLine := by
  rw [phpFindPrecedingComment]
  split
  · exact Nat.le_refl _
  · next h =>
    exact phpPrecLoop_le lines (symbolLine - 2) symbolLine symbolLine (Nat.le_refl _)
      (by omega)

/-- C4 amended, positive part: in the PHP boundary extraction every
non-final symbol ends strictly before the NEXT symbol's anchor line (the
explicit clamp `endLine = nextStart − 1`); consequently ranges can only
overlap through the next symbol's upward comment extension of its start
line, never through a runaway end line. -/
theorem php_symbol_ends_before_next_anchor (lines : List String) (ns : String) :
    ∀ ms : List RxMatch, (ms.Pairwise fun a b => a.lineNum < b.lineNum) →
      (∀ m ∈ ms, 1 ≤ m.lineNum) →
      ∀ p ∈ (phpExtractBoundaries lines ns ms).zip (ms.drop 1),
        p.1.endLine < p.2.lineNum := by
  intro ms
  induction ms with
  | nil => intro _ _ p hp; simp [phpExtractBoundaries] at hp
  | cons m rest ih =>
    intro hchain hone p hp
    match rest with
    | [] => simp [phpExtractBoundaries] at hp
    | next :: rest' =>
      rw [phpExtractBoundaries] at hp
      simp only [List.drop_succ_cons, List.drop_zero, List.zip_cons_cons] at hp
      rcases List.mem_cons.mp hp with heq | hmem
      · subst heq
        simp only
        have hlt : m.lineNum < next.lineNum :=
          (List.pairwise_cons.mp hchain).1 next (by simp)
        have hstart : (if m.lineNum > 1 then phpFindPrecedingComment lines m.lineNum
            else m.lineNum) ≤ m.lineNum := by
          split
          · exact phpFindPrecedingComment_le lines m.lineNum
          · exact Nat.le_refl _
        set s := if m.lineNum > 1 then phpFindPrecedingComment lines m.lineNum else m.lineNum
          with hs
        set e1 := phpFindBraceEnd lines m.lineNum with he1
        have hone' : 1 ≤ next.lineNum := hone next (by simp)
        have h2 : (if e1 ≥ next.lineNum then next.lineNum - 1 else e1) < next.lineNum := by
          split <;> omega
        set e2 := if e1 ≥ next.lineNum then next.lineNum - 1 else e1 with he2
        have h3 : (if e2 > lines.length then lines.length else e2) ≤ e2 := by
          split <;> omega
        set e3 := if e2 > lines.length then lines.length else e2 with he3
        show (if e3 < s then s else e3) < next.lineNum
        split
        · omega
        · omega
      · exact ih (List.pairwise_cons.mp hchain).2 (fun x hx => hone x (by simp [hx])) p hmem

/-- C4 amended witness: two anchors on lines 1 and 4 of a five-line file;
the first symbol's end line stays below 4. -/
theorem php_symbol_ends_before_next_anchor_witness :
    ((phpExtractBoundaries ["function a() \x7b", "", "// note", "function b() \x7b", "\x7d"] ""
        [⟨"a", "function", 1⟩, ⟨"b", "function", 4⟩]).zip
        ([⟨"a", "function", 1⟩, (⟨"b", "function", 4⟩ : RxMatch)].drop 1)).all
      (fun p => p.1.endLine < p.2.lineNum) = true :=
  List.all_eq_true.mpr fun p hp =>
    decide_eq_true
      (php_symbol_ends_before_next_anchor
        ["function a() \x7b", "", "// note", "function b() \x7b", "\x7d"] ""
        [⟨"a", "function", 1⟩, ⟨"b", "function", 4⟩] (by decide) (by decide) p hp)

/-- C4 counterexample: on the file

```
function a() {

// note
function b() {
}
```

the PHP chunker emits `a` over lines [1,3] (unclosed brace fallback clamped
to the next anchor) and `b` over lines [3,5] (its start pulled up over the
`// note` comment) — two distinct chunks whose inclusive ranges share
line 3. -/
theorem php_line_ranges_overlap_counterexample :
    ((phpChunk ⟨50, 200, 500, false⟩ "function a() \x7b\n\n// note\nfunction b() \x7b\n\x7d"
        ⟨"t.php", "php", "", "p"⟩).map fun c => (c.symbol, c.startLine, c.endLine))
      = [("a", 1, 3), ("b", 3, 5)] ∧
    ¬ ((3 : Nat) < 3 ∨ (5 : Nat) < 1) := by
  exact ⟨by decide, by decide⟩

/-! ## C5: small-chunk merging policy -/

/-- C5 counterexample: the Go chunker's merger never consults
`max_tokens`.  With `min_tokens = 3`, `max_tokens = 4`, a 1-token pending
symbol and a 4-token large symbol (combined: 5 tokens > 4), the claim
demands the pending be flushed as a separate `"combined"` chunk (two
outputs); the code instead produces a single merged symbol of 5 tokens
(and appends the pending as a suffix, not a prefix). -/
theorem go_merge_ignores_max_counterexample :
    goMergeSmallSymbols ⟨3, 500, 4, true⟩
        [⟨"s", "function", 1, 2, "aaaa", 1⟩, ⟨"b", "function", 4, 9, "bbbbbbbbbbbbbbbb", 4⟩]
      = [⟨"b+1", "function", 1, 9, "bbbbbbbbbbbbbbbb\n\naaaa", 5⟩] ∧
    (5 : Nat) > 4 ∧
    (goMergeSmallSymbols ⟨3, 500, 4, true⟩
        [⟨"s", "function", 1, 2, "aaaa", 1⟩, ⟨"b", "function", 4, 9, "bbbbbbbbbbbbbbbb", 4⟩]).length
      ≠ 2 := by
  refine ⟨by decide, by decide, by decide⟩

/-- C5 amended.  The two merge implementations follow different policies.
Go (`GoChunker.mergeSmallSymbols` / `mergeInto`): an over-sized symbol
absorbs the pending run unconditionally — no `max_tokens` check — with the
pending appended after the target's content; at end of file a pending run
is attached to the last emitted large symbol, and only when no large
symbol exists is everything combined into one `"combined"` chunk.
PHP/TypeScript (`mergeSmallSymbols`): the pending symbol is prefixed onto
an over-sized symbol only when the combined token count stays within
`max_tokens`, otherwise it is emitted standalone, keeping its own
(concatenated) name and its original symbol type — never relabelled
`"combined"`; at end of file a remaining pending is emitted standalone,
not attached to the last large symbol. -/
theorem merge_policy_amended :
    (∀ (cfg : ChunkingConfig) (s b : GoSymbol), s.tokens < cfg.minTokens →
      ¬ b.tokens < cfg.minTokens →
      goMergeSmallSymbols cfg [s, b] = [goMergeInto b [s]]) ∧
    (∀ (cfg : ChunkingConfig) (b s : GoSymbol), ¬ b.tokens < cfg.minTokens →
      s.tokens < cfg.minTokens →
      goMergeSmallSymbols cfg [b, s] = [goMergeInto b [s]]) ∧
    (∀ (cfg : ChunkingConfig) (s t : GoSymbol), s.tokens < cfg.minTokens →
      t.tokens < cfg.minTokens →
      goMergeSmallSymbols cfg [s, t] = [goCombineSymbols [s, t]] ∧
      (goCombineSymbols [s, t]).symbolType = "combined") ∧
    (∀ (cfg : ChunkingConfig) (p b : PhpSymbol), p.tokens < cfg.minTokens →
      ¬ b.tokens < cfg.minTokens →
      phpMergeSmallSymbols cfg [p, b] =
        (if p.tokens + b.tokens ≤ cfg.maxTokens then
          [{ b with content := p.content ++ "\n\n" ++ b.content,
                    startLine := p.startLine,
                    tokens := estimateTokens (p.content ++ "\n\n" ++ b.content) }]
         else [p, b])) ∧
    (∀ (cfg : ChunkingConfig) (b p : PhpSymbol), ¬ b.tokens < cfg.minTokens →
      p.tokens < cfg.minTokens →
      phpMergeSmallSymbols cfg [b, p] = [b, p]) := by
  refine ⟨?_, ?_, ?_, ?_, ?_⟩
  · intro cfg s b hs hb
    simp [goMergeSmallSymbols, goMergeLoop, hs, hb]
  · intro cfg b s hb hs
    simp [goMergeSmallSymbols, goMergeLoop, hs, hb]
  · intro cfg s t hs ht
    refine ⟨?_, rfl⟩
    simp [goMergeSmallSymbols, goMergeLoop, hs, ht]
  · intro cfg p b hp hb
    split
    · next hle =>
      simp [phpMergeSmallSymbols, phpMergeLoop, hp, hb, hle]
    · next hgt =>
      simp only [phpMergeSmallSymbols, phpMergeLoop, List.length_cons, List.length_nil]
      simp [hp, hb, hgt]
  · intro cfg b p hb hp
    simp [phpMergeSmallSymbols, phpMergeLoop, hp, hb]

/-- C5 amended witness: a 1-token pending and 4-token large symbol with
`max_tokens = 4` — Go merges them into one symbol, PHP flushes the pending
standalone. -/
theorem merge_policy_amended_witness :
    goMergeSmallSymbols ⟨3, 500, 4, true⟩
        [⟨"s", "function", 1, 2, "aaaa", 1⟩, ⟨"b", "function", 4, 9, "bbbbbbbbbbbbbbbb", 4⟩]
      = [goMergeInto ⟨"b", "function", 4, 9, "bbbbbbbbbbbbbbbb", 4⟩
          [⟨"s", "function", 1, 2, "aaaa", 1⟩]] ∧
    phpMergeSmallSymbols ⟨3, 500, 4, true⟩
        [⟨"p", "function", 1, 2, "aaaa", 1, ""⟩,
         ⟨"b", "function", 4, 9, "bbbbbbbbbbbbbbbb", 4, ""⟩]
      = (if (1 : Nat) + 4 ≤ 4 then
          [{ (⟨"b", "function", 4, 9, "bbbbbbbbbbbbbbbb", 4, ""⟩ : PhpSymbol) with
              content := "aaaa" ++ "\n\n" ++ "bbbbbbbbbbbbbbbb",
              startLine := 1,
              tokens := estimateTokens ("aaaa" ++ "\n\n" ++ "bbbbbbbbbbbbbbbb") }]
         else [⟨"p", "function", 1, 2, "aaaa", 1, ""⟩,
               ⟨"b", "function", 4, 9, "bbbbbbbbbbbbbbbb", 4, ""⟩]) :=
  ⟨merge_policy_amended.1 ⟨3, 500, 4, true⟩ _ _ (by decide) (by decide),
   merge_policy_amended.2.2.2.1 ⟨3, 500, 4, true⟩
     ⟨"p", "function", 1, 2, "aaaa", 1, ""⟩
     ⟨"b", "function", 4, 9, "bbbbbbbbbbbbbbbb", 4, ""⟩ (by decide) (by decide)⟩

/-! ## C6: token counting and the oversize criterion -/

theorem phpExtractBoundaries_tokens (lines : List String) (ns : String) :
    ∀ ms, ∀ sym ∈ phpExtractBoundaries lines ns ms,
      sym.tokens = estimateTokens sym.content := by
  intro ms
  induction ms with
  | nil => simp [phpExtractBoundaries]
  | cons m rest ih =>
    intro sym hsym
    match rest with
    | [] =>
      rw [phpExtractBoundaries] at hsym
      rcases List.mem_cons.mp hsym with h | h
      · subst h; rfl
      · exact absurd h (by simp [phpExtractBoundaries])
    | next :: tail =>
      rw [phpExtractBoundaries] at hsym
      rcases List.mem_cons.mp hsym with h | h
      · subst h; rfl
      · exact ih sym h

theorem phpMergeLoop_tokens (cfg : ChunkingConfig) :
    ∀ (rest : List PhpSymbol) (pending : Option PhpSymbol) (revResult : List PhpSymbol),
      (∀ p, pending = some p → p.tokens = estimateTokens p.content) →
      (∀ s ∈ revResult, s.tokens = estimateTokens s.content) →
      (∀ s ∈ rest, s.tokens = estimateTokens s.content) →
      ∀ sym ∈ phpMergeLoop cfg pending revResult rest,
        sym.tokens = estimateTokens sym.content := by
  intro rest
  induction rest with
  | nil =>
    intro pending revResult hp hr _ sym hsym
    cases pending with
    | none =>
      rw [phpMergeLoop] at hsym
      simp only [List.mem_reverse] at hsym
      exact hr sym hsym
    | some p =>
      rw [phpMergeLoop] at hsym
      simp only [List.mem_reverse, List.mem_cons] at hsym
      rcases hsym with h | h
      · exact h ▸ hp p rfl
      · exact hr sym h
  | cons s rest' ih =>
    intro pending revResult hp hr hrest sym hsym
    cases pending with
    | none =>
      rw [phpMergeLoop] at hsym
      by_cases hsmall : s.tokens < cfg.minTokens
      · rw [if_pos hsmall] at hsym
        exact ih (some s) revResult
          (fun p h => by cases h; exact hrest s (by simp))
          hr (fun x hx => hrest x (by simp [hx])) sym hsym
      · rw [if_neg hsmall] at hsym
        refine ih none (s :: revResult) (by simp) ?_ (fun x hx => hrest x (by simp [hx])) sym hsym
        intro x hx
        rcases List.mem_cons.mp hx with h | h
        · exact h ▸ hrest s (by simp)
        · exact hr x h
    | some p =>
      rw [phpMergeLoop] at hsym
      by_cases hsmall : s.tokens < cfg.minTokens
      · rw [if_pos hsmall] at hsym
        exact ih (some _) revResult (fun q h => by cases h; rfl)
          hr (fun x hx => hrest x (by simp [hx])) sym hsym
      · rw [if_neg hsmall] at hsym
        by_cases hfit : p.tokens + s.tokens ≤ cfg.maxTokens
        · rw [if_pos hfit] at hsym
          refine ih none _ (by simp) ?_ (fun x hx => hrest x (by simp [hx])) sym hsym
          intro x hx
          rcases List.mem_cons.mp hx with h | h
          · exact h ▸ rfl
          · exact hr x h
        · rw [if_neg hfit] at hsym
          refine ih none _ (by simp) ?_ (fun x hx => hrest x (by simp [hx])) sym hsym
          intro x hx
          rcases List.mem_cons.mp hx with h | h
          · exact h ▸ hrest s (by simp)
          rcases List.mem_cons.mp h with h2 | h2
          · exact h2 ▸ hp p rfl
          · exact hr x h2

theorem mdExtractLoop_tokens :
    ∀ (lines : List String) (n : Nat) (cur : Option MdSection) (acc : List MdSection),
      (∀ s ∈ acc, s.tokens = estimateTokens s.content) →
      ∀ s ∈ mdExtractLoop lines n cur acc, s.tokens = estimateTokens s.content := by
  intro lines
  induction lines with
  | nil =>
    intro n cur acc hacc s hs
    cases cur with
    | none =>
      rw [mdExtractLoop] at hs
      simp only [List.mem_reverse] at hs
      exact hacc s hs
    | some sec =>
      rw [mdExtractLoop] at hs
      simp only [List.mem_reverse, List.mem_cons] at hs
      rcases hs with h | h
      · exact h ▸ rfl
      · exact hacc s h
  | cons line rest ih =>
    intro n cur acc hacc s hs
    cases cur with
    | none =>
      rw [mdExtractLoop] at hs
      cases hhm : headingMatch line with
      | some lh =>
        rw [hhm] at hs
        exact ih (n + 1) _ acc hacc s hs
      | none =>
        rw [hhm] at hs
        exact ih (n + 1) _ acc hacc s hs
    | some sec =>
      rw [mdExtractLoop] at hs
      cases hhm : headingMatch line with
      | some lh =>
        rw [hhm] at hs
        refine ih (n + 1) _ _ ?_ s hs
        intro x hx
        rcases List.mem_cons.mp hx with h | h
        · exact h ▸ rfl
        · exact hacc x h
      | none =>
        rw [hhm] at hs
        exact ih (n + 1) _ acc hacc s hs

theorem mdMergeLoop_tokens (minTokens : Nat) :
    ∀ (revResult rest : List MdSection),
      (∀ s ∈ revResult, s.tokens = estimateTokens s.content) →
      (∀ s ∈ rest, s.tokens = estimateTokens s.content) →
      ∀ s ∈ mdMergeLoop minTokens revResult rest, s.tokens = estimateTokens s.content := by
  intro revResult rest
  induction revResult, rest using mdMergeLoop.induct minTokens with
  | case1 revResult =>
    intro hr _ s hs
    rw [mdMergeLoop] at hs
    simp only [List.mem_reverse] at hs
    exact hr s hs
  | case2 sec rest prev others c hcond ih =>
    intro hr hrest s hs
    rw [mdMergeLoop.eq_def] at hs
    simp only [hcond, if_true] at hs
    refine ih ?_ (fun x hx => hrest x (by simp [hx])) s hs
    intro x hx
    rcases List.mem_cons.mp hx with h | h
    · exact h ▸ rfl
    · exact hr x (List.mem_cons_of_mem _ h)
  | case3 sec rest hcond ih =>
    exact absurd hcond (by simp)
  | case4 revResult sec hneg prev others c hcond ih =>
    intro hr hrest s hs
    rw [mdMergeLoop.eq_def] at hs
    simp only [hneg, if_false, hcond, if_true] at hs
    refine ih hr ?_ s hs
    intro x hx
    rcases List.mem_cons.mp hx with h | h
    · exact h ▸ rfl
    · exact hrest x (List.mem_cons_of_mem _ (List.mem_cons_of_mem _ h))
  | case5 revResult sec hneg hcond ih =>
    exact absurd hcond (by simp)
  | case6 revResult sec rest hneg hneg2 ih =>
    intro hr hrest s hs
    rw [mdMergeLoop.eq_def] at hs
    simp only [hneg, hneg2, if_false] at hs
    refine ih ?_ (fun x hx => hrest x (by simp [hx])) s hs
    intro x hx
    rcases List.mem_cons.mp hx with h | h
    · exact h ▸ hrest sec (by simp)
    · exact hr x h

theorem phpMergeSmallSymbols_tokens (cfg : ChunkingConfig) (symbols : List PhpSymbol)
    (hbase : ∀ s ∈ symbols, s.tokens = estimateTokens s.content) :
    ∀ s ∈ phpMergeSmallSymbols cfg symbols, s.tokens = estimateTokens s.content := by
  rw [phpMergeSmallSymbols]
  split
  · exact hbase
  · exact phpMergeLoop_tokens cfg symbols none [] (by simp) (by simp) hbase

theorem mdMergeSmallSections_tokens (minTokens : Nat) (sections : List MdSection)
    (hbase : ∀ s ∈ sections, s.tokens = estimateTokens s.content) :
    ∀ s ∈ mdMergeSmallSections minTokens sections, s.tokens = estimateTokens s.content := by
  rw [mdMergeSmallSections]
  split
  · exact hbase
  · exact mdMergeLoop_tokens minTokens [] sections (by simp) hbase

theorem flatMap_utf8_replicate_a (n : Nat) :
    ((List.replicate n 'a').flatMap utf8Char).length = n := by
  induction n with
  | zero => rfl
  | succ k ih =>
    rw [List.replicate_succ, List.flatMap_cons, List.length_append, ih]
    have h1 : (utf8Char 'a').length = 1 := rfl
    omega

theorem byteLen_replicate_a (n : Nat) : byteLen (String.mk (List.replicate n 'a')) = n :=
  flatMap_utf8_replicate_a n

/-- The oversize rows of a single chunk above the worker threshold. -/
theorem oversize_report_of_single (r : String) (c : Chunk)
    (h : workerTokenEstimate (byteLen c.content) > indexerMaxTokens) :
    (oversizedEntriesOf r [c]).map (fun e => (e.tokenCount, e.maxAllowed, e.contentSize)) =
      [(workerTokenEstimate (byteLen c.content), indexerMaxTokens, byteLen c.content)] := by
  rw [oversizedEntriesOf]
  simp only [List.filterMap_cons, List.filterMap_nil, if_pos h]
  rfl

/-- The file-level chunk's token count is the `len/4` estimate. -/
theorem goChunkAsFile_tokenCounts (content : String) (m : FileMetadata) :
    (goChunkAsFile content m).map (fun c => c.tokenCount) = [estimateTokens content] := rfl

/-- The oversize report over a file-level chunk above the worker
threshold. -/
theorem oversize_report_of_file_chunk (r content : String) (m : FileMetadata)
    (h : workerTokenEstimate (byteLen content) > indexerMaxTokens) :
    (oversizedEntriesOf r (goChunkAsFile content m)).map
        (fun e => (e.tokenCount, e.maxAllowed, e.contentSize)) =
      [(workerTokenEstimate (byteLen content), indexerMaxTokens, byteLen content)] :=
  oversize_report_of_single r _ h

/-- C6 counterexample: a 6000-byte single-chunk file has
`token_count = len/4 = 1500 ≤ 2048`, so under the claim's criterion it is
not oversized — yet the worker records it, because the report uses
`int(len/2.5) = 2400 > 2048`. -/
theorem oversize_constant_counterexample :
    ((goChunkAsFile (String.mk (List.replicate 6000 'a')) ⟨"big.go", "go", "", "p"⟩).map
        fun c => c.tokenCount) = [1500] ∧
    ((oversizedEntriesOf "big.go"
        (goChunkAsFile (String.mk (List.replicate 6000 'a')) ⟨"big.go", "go", "", "p"⟩)).map
        fun e => (e.tokenCount, e.maxAllowed, e.contentSize)) = [(2400, 2048, 6000)] ∧
    ¬ (1500 : Nat) > 2048 ∧ (2400 : Nat) > 2048 := by
  have hlen : byteLen (String.mk (List.replicate 6000 'a')) = 6000 := byteLen_replicate_a 6000
  have hest : estimateTokens (String.mk (List.replicate 6000 'a')) = 1500 := by
    rw [estimateTokens, hlen]
  have hw : workerTokenEstimate (byteLen (String.mk (List.replicate 6000 'a'))) = 2400 := by
    rw [workerTokenEstimate, hlen]
  refine ⟨?_, ?_, by decide, by decide⟩
  · rw [goChunkAsFile_tokenCounts, hest]
  · have hcond : workerTokenEstimate (byteLen (String.mk (List.replicate 6000 'a'))) >
        indexerMaxTokens := by
      rw [hw]; decide
    exact (oversize_report_of_file_chunk "big.go" _ _ hcond).trans
      (by rw [hw, hlen]; rfl)

/-- C6 amended.  A chunk's `token_count` equals `len(content)/4` (shown for
the PHP and markdown pipelines, whose every path recomputes it with
`EstimateTokens`); a chunk is recorded in the per-project oversized report
exactly when the worker's separate estimate `int(len(content)/2.5)` — not
the `len/4` figure — exceeds the 2048-token ceiling. -/
theorem token_count_and_oversize_amended :
    (∀ cfg content metadata, ∀ c ∈ phpChunk cfg content metadata,
      c.tokenCount = estimateTokens c.content) ∧
    (∀ cfg content metadata, ∀ c ∈ mdChunk cfg content metadata,
      c.tokenCount = estimateTokens c.content) ∧
    (∀ relPath (chunks : List Chunk) (c : Chunk), c ∈ chunks →
      ((⟨relPath, c.symbol, workerTokenEstimate (byteLen c.content), indexerMaxTokens,
          byteLen c.content⟩ : OversizedChunk) ∈ oversizedEntriesOf relPath chunks ↔
        workerTokenEstimate (byteLen c.content) > indexerMaxTokens)) := by
  refine ⟨?_, ?_, ?_⟩
  · intro cfg content metadata c hc
    rw [phpChunk] at hc
    split at hc
    · rcases List.mem_singleton.mp hc with rfl
      rfl
    · rw [phpChunksFromSorted] at hc
      rcases List.mem_map.mp hc with ⟨sym, hsym, hcsym⟩
      have hinv : sym.tokens = estimateTokens sym.content := by
        revert hsym
        split
        · intro hsym
          exact phpMergeSmallSymbols_tokens cfg _
            (phpExtractBoundaries_tokens _ _ _) sym hsym
        · intro hsym
          exact phpExtractBoundaries_tokens _ _ _ sym hsym
      subst hcsym
      exact hinv
  · intro cfg content metadata c hc
    rw [mdChunk] at hc
    split at hc
    · rcases List.mem_singleton.mp hc with rfl
      rfl
    · rcases List.mem_map.mp hc with ⟨sec, hsec, hcsec⟩
      have hinv : sec.tokens = estimateTokens sec.content := by
        revert hsec
        split
        · intro hsec
          exact mdMergeSmallSections_tokens cfg.minTokens _
            (mdExtractLoop_tokens _ 1 none [] (by simp)) sec hsec
        · intro hsec
          exact mdExtractLoop_tokens _ 1 none [] (by simp) sec hsec
      subst hcsec
      exact hinv
  · intro relPath chunks c hc
    constructor
    · intro hmem
      rcases List.mem_filterMap.mp hmem with ⟨c', _, hc'⟩
      simp only [] at hc'
      split at hc'
      · next hbig =>
        injection hc' with h
        have hsize : byteLen c'.content = byteLen c.content :=
          congrArg OversizedChunk.contentSize h
        rw [← hsize]
        exact hbig
      · exact absurd hc' (by simp)
    · intro hbig
      refine List.mem_filterMap.mpr ⟨c, hc, ?_⟩
      rw [if_pos hbig]

/-- C6 amended witness: the oversize rule applied to one concrete chunk of
6000 bytes of content. -/
theorem token_count_and_oversize_amended_witness :
    (⟨"big.go", "s",
        workerTokenEstimate (byteLen (String.mk (List.replicate 6000 'a'))), indexerMaxTokens,
        byteLen (String.mk (List.replicate 6000 'a'))⟩ : OversizedChunk) ∈
      oversizedEntriesOf "big.go"
        [⟨"id", String.mk (List.replicate 6000 'a'), "s", "file", 1, 1, 1500, "h",
          "big.go", "go", "", "p"⟩] ↔
    workerTokenEstimate (byteLen (String.mk (List.replicate 6000 'a'))) > indexerMaxTokens :=
  token_count_and_oversize_amended.2.2 "big.go"
    [⟨"id", String.mk (List.replicate 6000 'a'), "s", "file", 1, 1, 1500, "h",
      "big.go", "go", "", "p"⟩]
    ⟨"id", String.mk (List.replicate 6000 'a'), "s", "file", 1, 1, 1500, "h",
      "big.go", "go", "", "p"⟩ (List.mem_singleton.mpr rfl)

/-! ## C1: there is no chunk-level diff in the collection stage -/

set_option maxRecDepth 8000 in
/-- C1 (demonstrating the divergence).  File `f.php` is edited: function
`a` is byte-identical between the two versions (same chunk id and hash),
function `b` is replaced by `bb`.  The collection stage of `processFiles`
nevertheless stages every chunk of the changed file for embedding —
including unchanged `a` — performs no per-chunk delete (the stale `b`
chunk id survives in the vector store), and replaces the cache entry with
the bare chunk-id list; the spec's chunk-level diff (`specChunkDiff`,
modelled from §4.3.1 step 7) would instead skip `a` and delete `b`. -/
theorem no_chunk_level_diff :
    let m : FileMetadata := ⟨"f.php", "php", "", "p"⟩
    let cfg : ChunkingConfig := ⟨0, 0, 0, false⟩
    let v1 := "function a() \x7b\n    echo 1;\n\x7d\n\nfunction b() \x7b\n    echo 2;\n\x7d"
    let v2 := "function a() \x7b\n    echo 1;\n\x7d\n\nfunction bb() \x7b\n    echo 3;\n\x7d"
    let out1 := phpChunk cfg v1 m
    let out2 := phpChunk cfg v2 m
    let prevCache := cacheLoad [("f.php", ⟨HashContent v1, 0, 0, out1.map (·.id)⟩)]
    let results : List FileResult := [⟨"f.php", out2, HashContent v2, false⟩]
    let prevPairs := out1.map fun c => (c.id, c.contentHash)
    let currPairs := out2.map fun c => (c.id, c.contentHash)
    -- chunk `a` is unchanged between the versions:
    ((out1.map (·.id)).take 1 = (out2.map (·.id)).take 1 ∧
     (prevPairs.take 1 = currPairs.take 1)) ∧
    -- the spec-modelled diff would skip `a` and delete `b`:
    ((specChunkDiff prevPairs currPairs).2.1 = (out1.map (·.id)).take 1 ∧
     (specChunkDiff prevPairs currPairs).1 = (out1.map (·.id)).drop 1) ∧
    -- but the code embeds every current chunk, `a` included:
    (collectChunks results).map (·.id) = out2.map (·.id) ∧
    -- deletes nothing:
    collectDeletes prevCache results = [] ∧
    -- and the new cache entry is the bare id list (no chunk-hash map exists):
    (cacheGet (collectCache prevCache results 7) "f.php").map (·.chunkIDs) =
      some (out2.map (·.id)) := by
  exact ⟨⟨by decide, by decide⟩, ⟨by decide, by decide⟩, by decide, by decide, by decide⟩

/-! ## C10: Save is gated on the dirty flag -/

/-- C10.  `Cache.Save` writes only when a mutating operation (`Set`,
`Delete`, `Clear`) has run since the cache was loaded: each of those marks
the dirty flag, `Save` returns `nil` leaving the file untouched when the
flag is clear, and a freshly loaded cache is clean — so an incremental
pass in which every cached path is re-discovered and every discovered
file's hash is unchanged leaves the cache state identical and writes
nothing (its `updated_at` cannot advance). -/
theorem cache_save_only_when_dirty
    (entries : List (String × CacheEntry)) (discovered : List (String × String))
    (chunkIdsOf : String → List String) (now : Nat) (projectID : String)
    (hall : ∀ p ∈ entries.map Prod.fst, discovered.any (fun d => d.1 = p))
    (hsame : ∀ d ∈ discovered, cacheHasChanged (cacheLoad entries) d.1 d.2 = false) :
    incrementalCachePass (cacheLoad entries) discovered chunkIdsOf now = cacheLoad entries ∧
    cacheSave (incrementalCachePass (cacheLoad entries) discovered chunkIdsOf now)
      projectID now = none ∧
    (∀ c p e, (cacheSet c p e).dirty = true) ∧
    (∀ c p, (cacheDelete c p).dirty = true) ∧
    (∀ c : CacheState, (cacheClear c).dirty = true) ∧
    (∀ (c : CacheState) pid n, cacheSave c pid n = none ↔ c.dirty = false) := by
  have hstale : ((cacheLoad entries).entries.map Prod.fst).filter
      (fun p => ¬ discovered.any (fun d => d.1 = p)) = [] := by
    rw [List.filter_eq_nil]
    intro p hp
    simpa using hall p hp
  have hpass : incrementalCachePass (cacheLoad entries) discovered chunkIdsOf now =
      cacheLoad entries := by
    rw [incrementalCachePass]
    simp only [hstale, List.foldl_nil]
    have : ∀ ds : List (String × String),
        (∀ d ∈ ds, cacheHasChanged (cacheLoad entries) d.1 d.2 = false) →
        ds.foldl (fun c d =>
          if cacheHasChanged c d.1 d.2 then cacheSet c d.1 ⟨d.2, now, now, chunkIdsOf d.1⟩
          else c) (cacheLoad entries) = cacheLoad entries := by
      intro ds
      induction ds with
      | nil => intro _; rfl
      | cons d ds' ih =>
        intro hds
        rw [List.foldl_cons, if_neg (by simp [hds d (by simp)])]
        exact ih fun x hx => hds x (by simp [hx])
    exact this discovered hsame
  refine ⟨hpass, ?_, fun c p e => ?_, fun c p => rfl, fun c => rfl, fun c pid n => ?_⟩
  · rw [hpass]
    rfl
  · rw [cacheSet]
    split <;> rfl
  · rw [cacheSave]
    constructor
    · intro h
      by_cases hd : c.dirty
      · rw [if_pos hd] at h
        exact absurd h (by simp)
      · simpa using hd
    · intro h
      rw [if_neg (by simp [h])]

/-- C10 witness: a two-entry cache re-discovering both files with matching
hashes stays clean and writes nothing. -/
theorem cache_save_only_when_dirty_witness :
    incrementalCachePass
        (cacheLoad [("a.go", ⟨"h1", 0, 0, ["i1"]⟩), ("b.md", ⟨"h2", 0, 0, ["i2"]⟩)])
        [("a.go", "h1"), ("b.md", "h2")] (fun _ => []) 9 =
      cacheLoad [("a.go", ⟨"h1", 0, 0, ["i1"]⟩), ("b.md", ⟨"h2", 0, 0, ["i2"]⟩)] ∧
    cacheSave
        (incrementalCachePass
          (cacheLoad [("a.go", ⟨"h1", 0, 0, ["i1"]⟩), ("b.md", ⟨"h2", 0, 0, ["i2"]⟩)])
          [("a.go", "h1"), ("b.md", "h2")] (fun _ => []) 9) "proj" 9 = none :=
  let T := cache_save_only_when_dirty
    [("a.go", ⟨"h1", 0, 0, ["i1"]⟩), ("b.md", ⟨"h2", 0, 0, ["i2"]⟩)]
    [("a.go", "h1"), ("b.md", "h2")] (fun _ => []) 9 "proj" (by decide) (by decide)
  ⟨T.1, T.2.1⟩

end ProjectIndexer
